import Mathlib

set_option linter.unnecessarySeqFocus false
set_option linter.unreachableTactic false
set_option linter.unusedTactic false

/-!
Shallow embedding of the jinja-test filter library
(src/filters/salt.py and src/filters/tags.py, Python 2) together with
proofs about the filters' behaviour.

Modelling conventions:
* Python values are the inductive type Val.  Floats are modelled as exact
  rationals (no NaN/Inf; every claim checked here stays inside the exactly
  representable range).  A Python set is represented by a list of its
  elements (first-occurrence order of construction is the canonical
  representative of the unordered collection); a dict by its key/value
  pairs in iteration order.
* Fallible operations return Except PyErr; the error constructors follow
  the spec's taxonomy (emptyInput is the ValueError raised by min()/max()
  on an empty sequence, zeroDivision the ZeroDivisionError from avg).
* Python 2 specifics are kept: isinstance(v, collections.Hashable) is
  true for tuples and strings but false for lists/sets/dicts, `/` on two
  integers is floor division, and bool compares numerically with int.
-/

/-- Python exception classes that the embedded filters can raise. -/
inductive PyErr where
  | typeError
  | emptyInput
  | zeroDivision
deriving DecidableEq, Repr

/-- Dynamically typed Python values as used by the filter library. -/
inductive Val where
  | none
  | bool (b : Bool)
  | int (n : Int)
  | float (q : ℚ)
  | str (s : String)
  | list (xs : List Val)
  | tuple (xs : List Val)
  | set (xs : List Val)
  | dict (kvs : List (Val × Val))

/-- Numeric view: Python bool/int/float all compare numerically. -/
def numQ : Val → Option ℚ
  | .bool b => some (if b then 1 else 0)
  | .int n => some (n : ℚ)
  | .float q => some q
  | _ => Option.none

/-- isinstance(v, collections.Hashable) in Python 2: true for every
scalar and for tuples (a tuple is an instance of Hashable even when its
elements are not); false for list, set and dict. -/
def isInstHashable : Val → Bool
  | .list _ => false
  | .set _ => false
  | .dict _ => false
  | _ => true

/-- Whether hash(v) actually succeeds, i.e. the value supports hash-based
membership testing: scalars do, a tuple does iff all of its elements do,
and lists/sets/dicts never do. -/
def elemHashable : Val → Bool
  | .list _ => false
  | .set _ => false
  | .dict _ => false
  | .tuple xs => goList xs
  | _ => true
where
  goList : List Val → Bool
    | [] => true
    | x :: xs => elemHashable x && goList xs

mutual

/-- Python equality (==) on embedded values: bool/int/float compare
numerically, strings and None structurally, lists/tuples pointwise, sets
by mutual membership, dicts by size plus key/value matching (stated in
both directions so that equality is symmetric even on representation
lists that a real Python dict could not produce). -/
def pyEq : Val → Val → Bool
  | .none, .none => true
  | .str s, .str t => decide (s = t)
  | .list xs, .list ys => pyEqList xs ys
  | .tuple xs, .tuple ys => pyEqList xs ys
  | .set xs, .set ys => pySubset xs ys && pySubset ys xs
  | .dict d1, .dict d2 =>
      decide (d1.length = d2.length) && pyPairsSub d1 d2 && pyPairsSub d2 d1
  | a, b =>
      match numQ a, numQ b with
      | some x, some y => decide (x = y)
      | _, _ => false
termination_by a b => sizeOf a + sizeOf b
decreasing_by all_goals (simp_wf <;> omega)

/-- Pointwise equality of two value lists (same length). -/
def pyEqList : List Val → List Val → Bool
  | [], [] => true
  | x :: xs, y :: ys => pyEq x y && pyEqList xs ys
  | _, _ => false
termination_by xs ys => sizeOf xs + sizeOf ys
decreasing_by all_goals (simp_wf <;> omega)

/-- Python membership x in ys (linear scan with ==). -/
def pyMemL : Val → List Val → Bool
  | _, [] => false
  | x, y :: ys => pyEq x y || pyMemL x ys
termination_by x ys => sizeOf x + sizeOf ys
decreasing_by all_goals (simp_wf <;> omega)

/-- Every element of the first list occurs (under ==) in the second. -/
def pySubset : List Val → List Val → Bool
  | [], _ => true
  | x :: xs, ys => pyMemL x ys && pySubset xs ys
termination_by xs ys => sizeOf xs + sizeOf ys
decreasing_by all_goals (simp_wf <;> omega)

/-- Every key/value pair of the first list has an ==-matching pair in the
second. -/
def pyPairsSub : List (Val × Val) → List (Val × Val) → Bool
  | [], _ => true
  | p :: ps, qs => pyPairMem p qs && pyPairsSub ps qs
termination_by ps qs => sizeOf ps + sizeOf qs
decreasing_by all_goals (simp_wf <;> omega)

/-- A key/value pair has an ==-matching pair in the list. -/
def pyPairMem : Val × Val → List (Val × Val) → Bool
  | _, [] => false
  | (a, b), (k, w) :: qs => (pyEq a k && pyEq b w) || pyPairMem (a, b) qs
termination_by p qs => sizeOf p + sizeOf qs
decreasing_by all_goals (simp_wf <;> omega)

end

/-- Python iteration: a list/tuple/set yields its elements, a string its
one-character substrings, a dict its keys; other values raise TypeError. -/
def pyIter : Val → Except PyErr (List Val)
  | .list xs => .ok xs
  | .tuple xs => .ok xs
  | .set xs => .ok xs
  | .str s => .ok (s.toList.map (fun c => .str (String.mk [c])))
  | .dict kvs => .ok (kvs.map Prod.fst)
  | _ => .error .typeError

/-- One step of the `if value not in ret: ret.append(value)` loop. -/
def dedupStep (acc : List Val) (v : Val) : List Val :=
  if pyMemL v acc then acc else acc ++ [v]

/-- Accumulate the distinct elements of a list in first-occurrence order;
this is both the fallback loop of unique and the canonical representative
chosen for a freshly built Python set. -/
def dedupFold (xs : List Val) : List Val := xs.foldl dedupStep []

/-- Elements of set(v): iterate v and insert each element into a hash
set; TypeError when v is not iterable or an element is unhashable. -/
def pySetElems (v : Val) : Except PyErr (List Val) := do
  let xs ← pyIter v
  if xs.all elemHashable then pure (dedupFold xs) else .error .typeError

/-- The Python builtin set(v). -/
def pySet (v : Val) : Except PyErr Val := do
  let xs ← pySetElems v
  pure (.set xs)

/-- Python membership `x in container`; TypeError when the right operand
is not a container (for a string container only substring tests of
strings are allowed). -/
def pyContains (container x : Val) : Except PyErr Bool :=
  match container with
  | .list ys => .ok (pyMemL x ys)
  | .tuple ys => .ok (pyMemL x ys)
  | .set ys => .ok (pyMemL x ys)
  | .dict kvs => .ok (pyMemL x (kvs.map Prod.fst))
  | .str t =>
      match x with
      | .str sub => .ok (decide (sub.toList <:+: t.toList))
      | _ => .error .typeError
  | _ => .error .typeError

/-- Effectful filtering of a list comprehension: evaluate the condition
on each element from left to right, aborting at the first raised
exception, exactly as a Python comprehension does. -/
def listFilterM (p : Val → Except PyErr Bool) : List Val → Except PyErr (List Val)
  | [] => .ok []
  | x :: xs => do
      let b ← p x
      let rest ← listFilterM p xs
      pure (if b then x :: rest else rest)

/-- unique from src/filters/salt.py: set(values) when values is an
instance of collections.Hashable, otherwise the order-preserving
duplicate-removal loop over the iterated elements. -/
def unique (values : Val) : Except PyErr Val :=
  if isInstHashable values then pySet values
  else do
    let xs ← pyIter values
    pure (.list (dedupFold xs))

/-- skip_filter from src/filters/salt.py: always the empty string. -/
def skip_filter (_data : Val) : Val := .str ""

/-- isinstance(data, (list, tuple, set, dict)). -/
def isSeqSetOrMap : Val → Bool
  | .list _ => true
  | .tuple _ => true
  | .set _ => true
  | .dict _ => true
  | _ => false

/-- ensure_sequence_filter from src/filters/salt.py: wrap anything that
is not a list/tuple/set/dict into a one-element list. -/
def ensure_sequence_filter (data : Val) : Val :=
  if isSeqSetOrMap data then data else .list [data]

/-- ASCII lowercasing, modelling str.lower() on the inputs the filters
care about. -/
def strLower (s : String) : String := String.mk (s.data.map Char.toLower)

/-- to_bool from src/filters/salt.py. -/
def to_bool (val : Val) : Bool :=
  match val with
  | .none => false
  | .bool b => b
  | .str s => decide (strLower s ∈ (["yes", "1", "true"] : List String))
  | .int n => decide (0 < n)
  | .list xs => decide (0 < xs.length)
  | .set xs => decide (0 < xs.length)
  | .dict kvs => decide (0 < kvs.length)
  | .float _ => false
  | .tuple _ => false

/-- Integer view: Python bool and int both behave as integers. -/
def intQ : Val → Option Int
  | .bool b => some (if b then 1 else 0)
  | .int n => some n
  | _ => Option.none

/-- Rank used by Python 2 mixed-type comparison: None is smaller than
everything, numbers are smaller than any non-number, and the remaining
types order by their type name (dict < list < set < str < tuple). -/
def pyRank : Val → Nat
  | .none => 0
  | .bool _ => 1
  | .int _ => 1
  | .float _ => 1
  | .dict _ => 2
  | .list _ => 3
  | .set _ => 4
  | .str _ => 5
  | .tuple _ => 6

mutual

/-- Python 2 three-way comparison, faithful on None, numbers, strings
and (recursively) lists/tuples; mixed types order by pyRank.  For two
dicts or two sets Python 2 uses a more involved rule (size order,
subset order); those are simplified to a lexicographic comparison here
and no theorem below compares dicts or sets. -/
def pyCmp : Val → Val → Ordering
  | .str s, .str t => cmp s.data t.data
  | .list xs, .list ys => pyCmpList xs ys
  | .tuple xs, .tuple ys => pyCmpList xs ys
  | .set xs, .set ys => pyCmpList xs ys
  | .dict d1, .dict d2 => (cmp d1.length d2.length).then (pyCmpPairs d1 d2)
  | a, b =>
      match numQ a, numQ b with
      | some x, some y => cmp x y
      | _, _ => cmp (pyRank a) (pyRank b)
termination_by a b => sizeOf a + sizeOf b
decreasing_by all_goals (simp_wf <;> omega)

/-- Lexicographic comparison of value lists. -/
def pyCmpList : List Val → List Val → Ordering
  | [], [] => .eq
  | [], _ :: _ => .lt
  | _ :: _, [] => .gt
  | x :: xs, y :: ys => (pyCmp x y).then (pyCmpList xs ys)
termination_by xs ys => sizeOf xs + sizeOf ys
decreasing_by all_goals (simp_wf <;> omega)

/-- Lexicographic comparison of key/value pair lists. -/
def pyCmpPairs : List (Val × Val) → List (Val × Val) → Ordering
  | [], [] => .eq
  | [], _ :: _ => .lt
  | _ :: _, [] => .gt
  | (k, v) :: ps, (l, w) :: qs =>
      ((pyCmp k l).then (pyCmp v w)).then (pyCmpPairs ps qs)
termination_by ps qs => sizeOf ps + sizeOf qs
decreasing_by all_goals (simp_wf <;> omega)

end

/-- Python a < b. -/
def pyLt (a b : Val) : Bool := decide (pyCmp a b = .lt)

/-- Python a > b. -/
def pyGt (a b : Val) : Bool := decide (pyCmp a b = .gt)

/-- Python a <= b. -/
def pyLe (a b : Val) : Bool := !pyGt a b

/-- lst_min from src/filters/salt.py, i.e. the Python builtin min():
iterate, keep the first element, replace it whenever a later element
compares strictly smaller; ValueError (the spec's EmptyInputError) on an
empty sequence. -/
def lst_min (obj : Val) : Except PyErr Val := do
  let xs ← pyIter obj
  match xs with
  | [] => .error .emptyInput
  | x :: rest => pure (rest.foldl (fun acc y => if pyLt y acc then y else acc) x)

/-- lst_max from src/filters/salt.py, i.e. the Python builtin max(). -/
def lst_max (obj : Val) : Except PyErr Val := do
  let xs ← pyIter obj
  match xs with
  | [] => .error .emptyInput
  | x :: rest => pure (rest.foldl (fun acc y => if pyGt y acc then y else acc) x)

/-- Python + : numeric addition (int unless a float is involved),
sequence concatenation of like sequences, string concatenation;
everything else raises TypeError. -/
def pyAdd (a b : Val) : Except PyErr Val :=
  match intQ a, intQ b with
  | some m, some n => .ok (.int (m + n))
  | _, _ =>
      match numQ a, numQ b with
      | some x, some y => .ok (.float (x + y))
      | _, _ =>
          match a, b with
          | .list xs, .list ys => .ok (.list (xs ++ ys))
          | .tuple xs, .tuple ys => .ok (.tuple (xs ++ ys))
          | .str s, .str t => .ok (.str (s ++ t))
          | _, _ => .error .typeError

/-- The Python builtin sum(): fold + over the elements starting from 0. -/
def pySum (xs : List Val) : Except PyErr Val := xs.foldlM pyAdd (.int 0)

/-- Python 2 division: floor division on two integers, exact division
once a float is involved; ZeroDivisionError on a zero divisor. -/
def pyDiv (a b : Val) : Except PyErr Val :=
  match intQ a, intQ b with
  | some m, some n =>
      if n = 0 then .error .zeroDivision else .ok (.int (Int.fdiv m n))
  | _, _ =>
      match numQ a, numQ b with
      | some x, some y =>
          if y = 0 then .error .zeroDivision else .ok (.float (x / y))
      | _, _ => .error .typeError

/-- The Python builtin float() on numbers; conversion from strings
(numeric literals) is not modelled, no claim depends on it. -/
def pyFloat (v : Val) : Except PyErr Val :=
  match numQ v with
  | some x => .ok (.float x)
  | _ => .error .typeError

/-- lst_avg from src/filters/salt.py: float(sum(lst)/len(lst)) for a
non-Hashable input (note Python 2 floor division when all elements are
integers), float(lst) otherwise. -/
def lst_avg (lst : Val) : Except PyErr Val :=
  if !isInstHashable lst then do
    let xs ← pyIter lst
    let s ← pySum xs
    let q ← pyDiv s (.int xs.length)
    pyFloat q
  else pyFloat lst

/-- union from src/filters/salt.py: set(lst1) | set(lst2) when both
inputs are instances of collections.Hashable, else unique(lst1 + lst2). -/
def union (lst1 lst2 : Val) : Except PyErr Val :=
  if isInstHashable lst1 && isInstHashable lst2 then do
    let s1 ← pySetElems lst1
    let s2 ← pySetElems lst2
    pure (.set (dedupFold (s1 ++ s2)))
  else do
    let c ← pyAdd lst1 lst2
    unique c

/-- intersect from src/filters/salt.py: set(lst1) & set(lst2) when both
inputs are Hashable instances, else unique of the elements of lst1 that
also occur in lst2. -/
def intersect (lst1 lst2 : Val) : Except PyErr Val :=
  if isInstHashable lst1 && isInstHashable lst2 then do
    let s1 ← pySetElems lst1
    let s2 ← pySetElems lst2
    pure (.set (s1.filter (fun x => pyMemL x s2)))
  else do
    let xs ← pyIter lst1
    let fil ← listFilterM (fun e => pyContains lst2 e) xs
    unique (.list fil)

/-- difference from src/filters/salt.py: set(lst1) - set(lst2) when both
inputs are Hashable instances, else unique of the elements of lst1 that
do not occur in lst2. -/
def difference (lst1 lst2 : Val) : Except PyErr Val :=
  if isInstHashable lst1 && isInstHashable lst2 then do
    let s1 ← pySetElems lst1
    let s2 ← pySetElems lst2
    pure (.set (s1.filter (fun x => !pyMemL x s2)))
  else do
    let xs ← pyIter lst1
    let fil ← listFilterM (fun e => Bool.not <$> pyContains lst2 e) xs
    unique (.list fil)

/-- symmetric_difference from src/filters/salt.py: set(lst1) ^ set(lst2)
when both inputs are Hashable instances, else unique of the elements of
union(lst1, lst2) that are not in intersect(lst1, lst2) (the intersect
expression sits inside the comprehension's condition and is re-evaluated
for every element, exactly as in the source). -/
def symmetric_difference (lst1 lst2 : Val) : Except PyErr Val :=
  if isInstHashable lst1 && isInstHashable lst2 then do
    let s1 ← pySetElems lst1
    let s2 ← pySetElems lst2
    pure (.set (s1.filter (fun x => !pyMemL x s2) ++ s2.filter (fun x => !pyMemL x s1)))
  else do
    let u ← union lst1 lst2
    let us ← pyIter u
    let fil ← listFilterM (fun e => do
      let i ← intersect lst1 lst2
      Bool.not <$> pyContains i e) us
    unique (.list fil)

/-- isinstance(v, str). -/
def isStr : Val → Bool
  | .str _ => true
  | _ => false

/-- isinstance(v, dict). -/
def isDict : Val → Bool
  | .dict _ => true
  | _ => false

/-- list_with_tag from src/filters/tags.py: for a dict and a string tag,
the keys whose value contains the tag, in iteration order; any other
argument types fall through to returning the first argument unchanged. -/
def list_with_tag (dct tag : Val) : Except PyErr Val :=
  match dct, tag with
  | .dict kvs, .str tg => do
      let ks ← kvs.foldlM
        (fun acc p => do
          let c ← pyContains p.2 (.str tg)
          pure (if c then acc ++ [p.1] else acc)) []
      pure (.list ks)
  | _, _ => pure dct

mutual

/-- The Python builtin str() (string form of a value).  Exact float
formatting and repr escaping are irrelevant to every claim below and are
only approximated. -/
def pyStr : Val → String
  | .str s => s
  | v => pyRepr v

/-- The Python builtin repr(), to the extent str() of containers needs
it. -/
def pyRepr : Val → String
  | .none => "None"
  | .bool b => if b then "True" else "False"
  | .int n => toString n
  | .float q => if q.den = 1 then toString q.num ++ ".0" else toString q
  | .str s => String.mk (Char.ofNat 39 :: s.data ++ [Char.ofNat 39])
  | .list xs => "[" ++ String.intercalate ", " (pyReprList xs) ++ "]"
  | .tuple xs => "(" ++ String.intercalate ", " (pyReprList xs) ++ ")"
  | .set xs => "set([" ++ String.intercalate ", " (pyReprList xs) ++ "])"
  | .dict kvs => "\x7b" ++ String.intercalate ", " (pyReprPairs kvs) ++ "\x7d"
termination_by v => sizeOf v
decreasing_by all_goals (simp_wf <;> omega)

/-- repr of every element of a list. -/
def pyReprList : List Val → List String
  | [] => []
  | x :: xs => pyRepr x :: pyReprList xs
termination_by xs => sizeOf xs
decreasing_by all_goals (simp_wf <;> omega)

/-- repr of every key/value pair of a dict. -/
def pyReprPairs : List (Val × Val) → List String
  | [] => []
  | (k, v) :: ps => (pyRepr k ++ ": " ++ pyRepr v) :: pyReprPairs ps
termination_by ps => sizeOf ps
decreasing_by all_goals (simp_wf <;> omega)

end

/-- Python 2 %-interpolation of a format string with one value: a single
%s directive is substituted with the value's string form, %% is a
literal percent, and as in Python a TypeError is raised when there is
more than one conversion (not enough arguments) or none at all (not all
arguments converted); other conversion characters are not modelled. -/
def pyFormatGo (k : Val) : List Char → Bool → Except PyErr String
  | [], used => if used then .ok "" else .error .typeError
  | c :: cs, used =>
      if c = Char.ofNat 37 then
        match cs with
        | d :: rest =>
            if d = Char.ofNat 115 then
              if used then .error .typeError
              else do
                let r ← pyFormatGo k rest true
                .ok (pyStr k ++ r)
            else if d = Char.ofNat 37 then do
              let r ← pyFormatGo k rest used
              .ok (String.mk [d] ++ r)
            else .error .typeError
        | [] => .error .typeError
      else do
        let r ← pyFormatGo k cs used
        .ok (String.mk [c] ++ r)

/-- interpolation % key for the tag filter. -/
def pyFormat (fmt : String) (k : Val) : Except PyErr String :=
  pyFormatGo k fmt.toList false

/-- interpolate_list_with_tag from src/filters/tags.py: like
list_with_tag but each matching key is pushed through the format string;
pass-through unless all three arguments have the expected types. -/
def interpolate_list_with_tag (dct tag interpolation : Val) : Except PyErr Val :=
  match dct, tag, interpolation with
  | .dict kvs, .str tg, .str fmt => do
      let ks ← kvs.foldlM
        (fun acc p => do
          let c ← pyContains p.2 (.str tg)
          if c then do
            let s ← pyFormat fmt p.1
            pure (acc ++ [Val.str s])
          else pure acc) []
      pure (.list ks)
  | _, _, _ => pure dct

/-- The filter functions of the two modules, as first-class tags so the
registrar can be modelled as data. -/
inductive FilterFn where
  | skip_filter | ensure_sequence_filter | to_bool | quote
  | regex_escape | regex_search | regex_match | regex_replace
  | uuid_ | unique | lst_min | lst_max | lst_avg
  | union | intersect | difference | symmetric_difference
  | list_with_tag | interpolate_list_with_tag
deriving DecidableEq, Repr

/-- env.filters[k] = f : dict assignment (overwrite or append). -/
def envSet (env : List (String × FilterFn)) (k : String) (f : FilterFn) :
    List (String × FilterFn) :=
  if env.any (fun p => p.1 = k) then
    env.map (fun p => if p.1 = k then (k, f) else p)
  else env ++ [(k, f)]

/-- install from src/filters/salt.py: the seventeen assignments into
env.filters, in source order. -/
def saltInstall (env : List (String × FilterFn)) : List (String × FilterFn) :=
  let e := envSet env "skip_filter" .skip_filter
  let e := envSet e "ensure_sequence_filter" .ensure_sequence_filter
  let e := envSet e "to_bool" .to_bool
  let e := envSet e "quote" .quote
  let e := envSet e "regex_escape" .regex_escape
  let e := envSet e "regex_search" .regex_search
  let e := envSet e "regex_match" .regex_match
  let e := envSet e "regex_replace" .regex_replace
  let e := envSet e "uuid_" .uuid_
  let e := envSet e "unique" .unique
  let e := envSet e "lst_min" .lst_min
  let e := envSet e "lst_max" .lst_max
  let e := envSet e "lst_avg" .lst_avg
  let e := envSet e "union" .union
  let e := envSet e "intersect" .intersect
  let e := envSet e "difference" .difference
  envSet e "symmetric_difference" .symmetric_difference

/-- install from src/filters/tags.py: the two assignments. -/
def tagsInstall (env : List (String × FilterFn)) : List (String × FilterFn) :=
  let e := envSet env "list_with_tag" .list_with_tag
  envSet e "interpolate_list_with_tag" .interpolate_list_with_tag

/-- Reduce to a 32-bit word. -/
def w32 (n : Nat) : Nat := n % 4294967296

/-- 32-bit left rotation. -/
def rotl (k n : Nat) : Nat := w32 ((n <<< k) ||| (n >>> (32 - k)))

/-- Big-endian bytes of a 32-bit word. -/
def wordBytes (w : Nat) : List Nat :=
  [w >>> 24 % 256, w >>> 16 % 256, w >>> 8 % 256, w % 256]

/-- SHA-1 padding: append 0x80, zeros up to 56 mod 64, then the bit
length as eight big-endian bytes. -/
def sha1pad (msg : List Nat) : List Nat :=
  let L := msg.length
  let padLen := (119 - L % 64) % 64
  let bitLen := 8 * L
  msg ++ 128 :: List.replicate padLen 0 ++
    [bitLen >>> 56 % 256, bitLen >>> 48 % 256, bitLen >>> 40 % 256,
     bitLen >>> 32 % 256, bitLen >>> 24 % 256, bitLen >>> 16 % 256,
     bitLen >>> 8 % 256, bitLen % 256]

/-- Split a byte list into 64-byte chunks (the fuel argument only drives
structural termination; the initial fuel, the list length, always
suffices since each step drops sixty-four elements). -/
def chunksGo : Nat → List Nat → List (List Nat)
  | 0, _ => []
  | _, [] => []
  | fuel + 1, l => l.take 64 :: chunksGo fuel (l.drop 64)

/-- Split a byte list into 64-byte chunks. -/
def chunks64 (l : List Nat) : List (List Nat) := chunksGo l.length l

/-- Big-endian 32-bit words of a 64-byte chunk. -/
def toWords : List Nat → List Nat
  | b0 :: b1 :: b2 :: b3 :: rest =>
      (((b0 * 256 + b1) * 256 + b2) * 256 + b3) :: toWords rest
  | _ => []

/-- Message-schedule extension step: append the rotated xor of the words
three, eight, fourteen and sixteen places back. -/
def extendStep (ws : List Nat) : List Nat :=
  ws ++
    [rotl 1 (ws.getD (ws.length - 3) 0 ^^^ ws.getD (ws.length - 8) 0 ^^^
             ws.getD (ws.length - 14) 0 ^^^ ws.getD (ws.length - 16) 0)]

/-- Message-schedule extension to eighty words (sixty-four steps from
the sixteen chunk words). -/
def extendW (ws : List Nat) : List Nat :=
  (List.range 64).foldl (fun acc _ => extendStep acc) ws

/-- One SHA-1 round. -/
def sha1Round (ws : List Nat) (st : Nat × Nat × Nat × Nat × Nat) (i : Nat) :
    Nat × Nat × Nat × Nat × Nat :=
  let (a, b, c, d, e) := st
  let f :=
    if i < 20 then (b &&& c) ||| ((b ^^^ 4294967295) &&& d)
    else if i < 40 then b ^^^ c ^^^ d
    else if i < 60 then (b &&& c) ||| (b &&& d) ||| (c &&& d)
    else b ^^^ c ^^^ d
  let k :=
    if i < 20 then 1518500249
    else if i < 40 then 1859775393
    else if i < 60 then 2400959708
    else 3395469782
  let temp := w32 (rotl 5 a + f + e + k + ws.getD i 0)
  (temp, a, rotl 30 b, c, d)

/-- Process one 64-byte chunk. -/
def sha1Chunk (h : Nat × Nat × Nat × Nat × Nat) (chunk : List Nat) :
    Nat × Nat × Nat × Nat × Nat :=
  let (h0, h1, h2, h3, h4) := h
  let ws := extendW (toWords chunk)
  let (a, b, c, d, e) := (List.range 80).foldl (sha1Round ws) (h0, h1, h2, h3, h4)
  (w32 (h0 + a), w32 (h1 + b), w32 (h2 + c), w32 (h3 + d), w32 (h4 + e))

/-- SHA-1 digest (twenty bytes) of a byte message. -/
def sha1 (msg : List Nat) : List Nat :=
  let (h0, h1, h2, h3, h4) :=
    (chunks64 (sha1pad msg)).foldl sha1Chunk
      (1732584193, 4023233417, 2562383102, 271733878, 3285377520)
  wordBytes h0 ++ wordBytes h1 ++ wordBytes h2 ++ wordBytes h3 ++ wordBytes h4

/-- Lowercase hexadecimal digit. -/
def hexDigit (n : Nat) : Char :=
  if n < 10 then Char.ofNat (48 + n) else Char.ofNat (87 + n)

/-- Two lowercase hex characters of a byte. -/
def byteHex (b : Nat) : String := String.mk [hexDigit (b / 16 % 16), hexDigit (b % 16)]

/-- Hex string of a byte list. -/
def bytesHex : List Nat → String
  | [] => ""
  | b :: bs => byteHex b ++ bytesHex bs

/-- uuid.uuid5(namespace, name): SHA-1 of the namespace bytes followed by
the name bytes, truncated to sixteen bytes, with the version nibble
forced to 5 (the byte at index six becomes 0x50 + its low nibble) and
the RFC 4122 variant bits set (the byte at index eight becomes 0x80 +
its low six bits), rendered in the canonical 8-4-4-4-12 form. -/
def uuid5 (ns name : List Nat) : String :=
  let d := (sha1 (ns ++ name)).take 16
  let b6 := 80 + d.getD 6 0 % 16
  let b8 := 128 + d.getD 8 0 % 64
  bytesHex (d.take 4) ++ "-" ++ bytesHex [d.getD 4 0, d.getD 5 0] ++ "-" ++
    bytesHex [b6, d.getD 7 0] ++ "-" ++ bytesHex [b8, d.getD 9 0] ++ "-" ++
    bytesHex (d.drop 10)

/-- Modelled from the spec: the process-wide namespace constant
GLOBAL_UUID is referenced by uuid_ in src/filters/salt.py but defined
nowhere under src; the spec requires "a fixed, process-wide namespace
constant ... initialized once before any filter call and never mutated".
It is modelled as this fixed sixteen-byte value (the constant used by the
upstream saltstack module the file was extracted from). -/
def GLOBAL_UUID : List Nat :=
  [145, 99, 62, 191, 28, 134, 85, 101, 167, 156, 136, 98, 212, 105, 25, 76]

/-- Modelled from the spec: salt.utils.stringutils.to_str is called by
uuid_ in src/filters/salt.py but its module is not under src; the spec
says the identifier is derived from "the string form of the input
value", modelled as pyStr. -/
def to_str (val : Val) : String := pyStr val

/-- Byte list of a string (the claims only exercise ASCII inputs; each
character is taken as one byte of its code point). -/
def strBytes (s : String) : List Nat := s.toList.map Char.toNat

/-- uuid_ from src/filters/salt.py: the version-5 identifier of the
input's string form under the fixed namespace constant. -/
def uuid_ (val : Val) : String := uuid5 GLOBAL_UUID (strBytes (to_str val))

/-- Abstract syntax of a compiled regular-expression pattern (the core
fragment the regex filters operate on: literal characters, the dot, 
concatenation, alternation, greedy star and capture groups; pattern
syntax parsing is outside the embedding). -/
inductive Rgx where
  | eps
  | char (c : Char)
  | any
  | concat (a b : Rgx)
  | alt (a b : Rgx)
  | star (a : Rgx)
  | group (a : Rgx)

/-- Number of capture groups of a pattern. -/
def numGroups : Rgx → Nat
  | .eps => 0
  | .char _ => 0
  | .any => 0
  | .concat a b => numGroups a + numGroups b
  | .alt a b => numGroups a + numGroups b
  | .star a => numGroups a
  | .group a => numGroups a + 1

/-- flag = 0; if ignorecase: flag |= re.I; if multiline: flag |= re.M
(re.I is bit 2 and re.M bit 8 in CPython, composed independently). -/
def reFlag (ignorecase multiline : Bool) : Nat :=
  (if ignorecase then 2 else 0) ||| (if multiline then 8 else 0)

/-- Character match for a literal, honouring the ignorecase bit. -/
def rchar (flag : Nat) (c d : Char) : Bool :=
  if flag &&& 2 ≠ 0 then c.toLower = d.toLower else c = d

/-- The dot matches any character except a newline (DOTALL is never set
by the filters). -/
def rany (d : Char) : Bool := decide (d ≠ Char.ofNat 10)

/-- Captured groups of a (partial) match: for each group in syntactic
order, the characters it captured, or none if it did not participate. -/
abbrev Caps := List (Option (List Char))

/-- Captures of a pattern none of whose groups participated. -/
def noCaps (r : Rgx) : Caps := List.replicate (numGroups r) Option.none

/-- Captures across star iterations: a group keeps the value from the
last iteration in which it participated. -/
def mergeCaps (g1 g2 : Caps) : Caps :=
  List.zipWith
    (fun a b =>
      match b with
      | some x => some x
      | Option.none => a) g1 g2

/-- Backtracking matcher: all ways the pattern can consume a prefix of
the input, as (remaining suffix, captures) pairs in the engine's
priority order (alternation tries its left branch first, the greedy star
tries another iteration before matching empty).  A star iteration must
consume input, which keeps matching of empty-loop patterns terminating
exactly as CPython's engine does; the two length tests mirror the
recursion's termination measure and always succeed (parses_suffix
below). -/
def parses (flag : Nat) : Rgx → List Char → List (List Char × Caps)
  | .eps, s => [(s, [])]
  | .char _, [] => []
  | .char c, d :: rest => if rchar flag c d then [(rest, [])] else []
  | .any, [] => []
  | .any, d :: rest => if rany d then [(rest, [])] else []
  | .concat a b, s =>
      (parses flag a s).flatMap
        (fun p =>
          if h : p.1.length ≤ s.length then
            (parses flag b p.1).map (fun q => (q.1, p.2 ++ q.2))
          else [])
  | .alt a b, s =>
      ((parses flag a s).map (fun p => (p.1, p.2 ++ noCaps b))) ++
        ((parses flag b s).map (fun q => (q.1, noCaps a ++ q.2)))
  | .star a, s =>
      ((parses flag a s).flatMap
        (fun p =>
          if h : p.1.length < s.length then
            (parses flag (.star a) p.1).map (fun q => (q.1, mergeCaps p.2 q.2))
          else [])) ++ [(s, noCaps a)]
  | .group a, s =>
      (parses flag a s).map
        (fun p => (p.1, some (s.take (s.length - p.1.length)) :: p.2))
termination_by r s => (s.length, sizeOf r)
decreasing_by
  all_goals simp_wf
  all_goals
    first
      | exact Prod.Lex.left _ _ (by omega)
      | (apply Prod.Lex.right; omega)
      | (rcases Nat.lt_or_eq_of_le h with h1 | h1
         · exact Prod.Lex.left _ _ h1
         · rw [h1]; exact Prod.Lex.right _ (by omega))

/-- The pattern matches exactly this string (under the given flag). -/
inductive RMatch (flag : Nat) : Rgx → List Char → Prop where
  | eps : RMatch flag .eps []
  | char {c d : Char} : rchar flag c d = true → RMatch flag (.char c) [d]
  | any {d : Char} : rany d = true → RMatch flag .any [d]
  | concat {a b : Rgx} {s1 s2 : List Char} :
      RMatch flag a s1 → RMatch flag b s2 → RMatch flag (.concat a b) (s1 ++ s2)
  | altL {a b : Rgx} {s : List Char} : RMatch flag a s → RMatch flag (.alt a b) s
  | altR {a b : Rgx} {s : List Char} : RMatch flag b s → RMatch flag (.alt a b) s
  | starNil {a : Rgx} : RMatch flag (.star a) []
  | starCons {a : Rgx} {s1 s2 : List Char} :
      s1 ≠ [] → RMatch flag a s1 → RMatch flag (.star a) s2 →
      RMatch flag (.star a) (s1 ++ s2)
  | group {a : Rgx} {s : List Char} : RMatch flag a s → RMatch flag (.group a) s

/-- re.match at the current position: the highest-priority parse, if
any; the returned match object is reduced to its .groups() data. -/
def reMatchAt (flag : Nat) (r : Rgx) (s : List Char) : Option Caps :=
  match parses flag r s with
  | [] => Option.none
  | p :: _ => some p.2

/-- re.search: try successive start positions left to right. -/
def reSearchFrom (flag : Nat) (r : Rgx) : List Char → Option Caps
  | [] => reMatchAt flag r []
  | c :: rest =>
      match reMatchAt flag r (c :: rest) with
      | some g => some g
      | Option.none => reSearchFrom flag r rest

/-- One captured group of the match object, as the filter returns it
inside the groups() tuple: the captured text, or None for a group that
did not participate. -/
def capVal : Option (List Char) → Val
  | Option.none => Val.none
  | some cs => .str (String.mk cs)

/-- regex_search from src/filters/salt.py: compose the flags, search the
text; `if not obj: return` yields the absent value exactly when there is
no match object, otherwise the tuple of captured groups (which is the
empty tuple for a pattern without groups, a present value). -/
def regex_search (txt : List Char) (rgx : Rgx) (ignorecase multiline : Bool) : Val :=
  match reSearchFrom (reFlag ignorecase multiline) rgx txt with
  | Option.none => .none
  | some gs => .tuple (gs.map capVal)

/-- regex_match from src/filters/salt.py: same as regex_search but
anchored at the start of the text (re.match). -/
def regex_match (txt : List Char) (rgx : Rgx) (ignorecase multiline : Bool) : Val :=
  match reMatchAt (reFlag ignorecase multiline) rgx txt with
  | Option.none => .none
  | some gs => .tuple (gs.map capVal)

/-! ## Claim C3: the ToBool truth table -/

/-- C3: ToBool implements the stated truth table — absent/null is false,
a boolean returns itself, a string is true iff its lowercase form is one
of yes/1/true, an integer is true iff strictly greater than zero, any
other hashable value (floats, tuples) is false, and a non-hashable
collection (list/set/dict) is true iff non-empty — including the quoted
examples ToBool("YES"), ToBool("no"), ToBool(0), ToBool(null), ToBool(5). -/
theorem to_bool_truth_table :
    to_bool .none = false ∧
    (∀ b, to_bool (.bool b) = b) ∧
    (∀ s, to_bool (.str s) = true ↔
      (strLower s = "yes" ∨ strLower s = "1" ∨ strLower s = "true")) ∧
    (∀ n : Int, (to_bool (.int n) = true ↔ 0 < n)) ∧
    (∀ q, to_bool (.float q) = false) ∧
    (∀ xs, to_bool (.tuple xs) = false) ∧
    (∀ xs, (to_bool (.list xs) = true ↔ xs ≠ [])) ∧
    (∀ xs, (to_bool (.set xs) = true ↔ xs ≠ [])) ∧
    (∀ ps, (to_bool (.dict ps) = true ↔ ps ≠ [])) ∧
    to_bool (.str "YES") = true ∧ to_bool (.str "no") = false ∧
    to_bool (.int 0) = false ∧ to_bool (.int 5) = true := by
  refine ⟨rfl, fun b => rfl, fun s => ?_, fun n => ?_, fun q => rfl,
    fun xs => rfl, fun xs => ?_, fun xs => ?_, fun ps => ?_,
    by decide, by decide, by decide, by decide⟩
  · simp [to_bool]
  · simp [to_bool]
  · simp [to_bool, List.length_pos]
  · simp [to_bool, List.length_pos]
  · simp [to_bool, List.length_pos]

/-! ## Claim C9: EnsureSequence idempotence -/

/-- C9: EnsureSequence is idempotent on non-container values: wrapping a
non-container produces a list, and a second application returns that
list unchanged. -/
theorem ensure_sequence_idempotent (x : Val) (h : isSeqSetOrMap x = false) :
    ensure_sequence_filter (ensure_sequence_filter x) = ensure_sequence_filter x := by
  have h1 : ensure_sequence_filter x = .list [x] := by
    unfold ensure_sequence_filter
    rw [h]
    simp
  rw [h1]
  rfl

/-- Witness for C9 at the non-container input "foo". -/
theorem ensure_sequence_idempotent_witness :
    isSeqSetOrMap (.str "foo") = false ∧
    ensure_sequence_filter (ensure_sequence_filter (.str "foo")) =
      ensure_sequence_filter (.str "foo") :=
  ⟨rfl, ensure_sequence_idempotent (.str "foo") rfl⟩

/-! ## Claim C8: pass-through on type mismatch in the tag filters -/

/-- The spec's example of a tag mapping. -/
def tagMapExample : Val :=
  .dict [(.str "item1", .list [.str "tag1", .str "tag2"]),
         (.str "item2", .list [.str "tag1"])]

/-- C8: ListWithTag returns its first argument unchanged whenever that
argument is not a mapping or the tag is not a string (in particular for
a mapping with the non-string tag 123), and InterpolateListWithTag
additionally passes through whenever the format argument is not a
string. -/
theorem tags_passthrough :
    (∀ d t, isDict d = false → list_with_tag d t = .ok d) ∧
    (∀ d t, isStr t = false → list_with_tag d t = .ok d) ∧
    list_with_tag tagMapExample (.int 123) = .ok tagMapExample ∧
    (∀ d t f, isStr f = false → interpolate_list_with_tag d t f = .ok d) := by
  refine ⟨?_, ?_, rfl, ?_⟩
  · intro d t hd
    cases d <;> first
      | rfl
      | (cases t <;> first | rfl | simp [isDict] at hd)
  · intro d t ht
    cases d <;> first
      | rfl
      | (cases t <;> first | rfl | simp [isStr] at ht)
  · intro d t f hf
    cases d <;> first
      | rfl
      | (cases t <;> first
          | rfl
          | (cases f <;> first | rfl | simp [isStr] at hf))

/-- Witness for C8: pass-through at concrete ill-typed arguments. -/
theorem tags_passthrough_witness :
    list_with_tag (.int 7) (.str "tag1") = .ok (.int 7) ∧
    list_with_tag tagMapExample (.int 123) = .ok tagMapExample ∧
    interpolate_list_with_tag tagMapExample (.str "tag1") (.int 3) =
      .ok tagMapExample :=
  ⟨tags_passthrough.1 (.int 7) (.str "tag1") rfl,
   tags_passthrough.2.2.1,
   tags_passthrough.2.2.2 tagMapExample (.str "tag1") (.int 3) rfl⟩

/-! ## Claim C4: Average and Python 2 floor division -/

/-- C4 (code bug): at the docstring's own example list [1,2,3,4] the
filter returns 2.0, because Python 2 evaluates sum(lst)/len(lst) with
floor division before float() is applied; the arithmetic mean promised
by the docstring and the spec is 5/2, not 2.  The scalar compatibility
path (Average(5) = 5.0) behaves as claimed. -/
theorem lst_avg_floor_division :
    lst_avg (.list [.int 1, .int 2, .int 3, .int 4]) = .ok (.float 2) ∧
    ((1 + 2 + 3 + 4 : ℚ) / 4 ≠ 2) ∧
    lst_avg (.int 5) = .ok (.float 5) := by
  refine ⟨by rfl, by norm_num, rfl⟩

/-! ## Claim C5: the registrar's filter names -/

/-- C5 (code bug): the names actually installed into the engine's filter
namespace are the Python function names — skip_filter,
ensure_sequence_filter, uuid_, lst_min, lst_max and lst_avg among them —
while the docstrings (and the spec) use the filters as skip, sequence,
uuid, min, max and avg, none of which are registered. -/
theorem install_names :
    (tagsInstall (saltInstall [])).map Prod.fst =
      ["skip_filter", "ensure_sequence_filter", "to_bool", "quote",
       "regex_escape", "regex_search", "regex_match", "regex_replace",
       "uuid_", "unique", "lst_min", "lst_max", "lst_avg",
       "union", "intersect", "difference", "symmetric_difference",
       "list_with_tag", "interpolate_list_with_tag"] ∧
    "skip" ∉ (tagsInstall (saltInstall [])).map Prod.fst ∧
    "sequence" ∉ (tagsInstall (saltInstall [])).map Prod.fst ∧
    "uuid" ∉ (tagsInstall (saltInstall [])).map Prod.fst ∧
    "min" ∉ (tagsInstall (saltInstall [])).map Prod.fst ∧
    "max" ∉ (tagsInstall (saltInstall [])).map Prod.fst ∧
    "avg" ∉ (tagsInstall (saltInstall [])).map Prod.fst := by
  refine ⟨rfl, ?_, ?_, ?_, ?_, ?_, ?_⟩ <;> decide

/-! ## Claim C2: the deterministic identifier -/

/-- The SHA-1 digest always has twenty bytes. -/
theorem sha1_length (msg : List Nat) : (sha1 msg).length = 20 := by
  unfold sha1
  obtain ⟨h0, h1, h2, h3, h4⟩ :=
    (chunks64 (sha1pad msg)).foldl sha1Chunk
      (1732584193, 4023233417, 2562383102, 271733878, 3285377520)
  simp [wordBytes]

/-- Two hex characters per byte. -/
theorem bytesHex_length (bs : List Nat) : (bytesHex bs).length = 2 * bs.length := by
  induction bs with
  | nil => rfl
  | cons b bs ih =>
      simp only [bytesHex, String.length_append, ih, byteHex, String.length_mk,
        List.length_cons, List.length_nil]
      omega

set_option maxRecDepth 4000 in
/-- A version-5 identifier is thirty-six characters long, and its
version nibble (character fourteen) reads 5. -/
theorem uuid5_shape (ns name : List Nat) :
    (uuid5 ns name).length = 36 ∧ (uuid5 ns name).data.getD 14 'a' = '5' := by
  unfold uuid5 sha1
  obtain ⟨h0, h1, h2, h3, h4⟩ :=
    (chunks64 (sha1pad (ns ++ name))).foldl sha1Chunk
      (1732584193, 4023233417, 2562383102, 271733878, 3285377520)
  have hx : ∀ x : Nat, (80 + x % 16) / 16 % 16 = 5 := by intro x; omega
  have hdashl : ("-" : String).length = 1 := rfl
  have hdashd : ("-" : String).data = ['-'] := rfl
  refine ⟨?_, ?_⟩ <;>
    (dsimp only
     simp [wordBytes, bytesHex, byteHex, String.length_append, String.length_mk,
       String.data_append, hx, hexDigit, hdashl, hdashd])

set_option maxRecDepth 10000 in
/-- C2: DeterministicId is fully deterministic — the identifier is a
pure function of the input's string form under the single fixed
namespace constant GLOBAL_UUID (a Lean constant, never mutated); every
output is a thirty-six character identifier whose version nibble reads
5 (version-5, derived by SHA-1 from namespace plus name); and the
reference input "example" reproduces one fixed identifier bit for bit
(the value of uuid5 at the modelled namespace constant). -/
theorem uuid_deterministic :
    (∀ v w : Val, to_str v = to_str w → uuid_ v = uuid_ w) ∧
    (∀ v : Val, (uuid_ v).length = 36 ∧ (uuid_ v).data.getD 14 'a' = '5') ∧
    uuid_ (.str "example") = "1bf52d4e-d2ac-5e69-bbde-ac905727900f" := by
  refine ⟨fun v w h => by unfold uuid_; rw [h], fun v => uuid5_shape _ _, by rfl⟩

set_option maxRecDepth 10000 in
/-- Witness for C2: the integer 5 and the string "5" have the same
string form, so two invocations on them return the identical identifier;
the concrete length and version nibble at the reference input. -/
theorem uuid_deterministic_witness :
    uuid_ (.int 5) = uuid_ (.str "5") ∧
    (uuid_ (.str "example")).length = 36 ∧
    (uuid_ (.str "example")).data.getD 14 'a' = '5' :=
  ⟨uuid_deterministic.1 (.int 5) (.str "5") (by simp [to_str, pyStr, pyRepr]; rfl),
   uuid_deterministic.2.1 (.str "example")⟩

/-! ## Python equality is an equivalence: support for the set filters -/

/-- Every value has positive size. -/
theorem Val.sizeOf_pos (v : Val) : 0 < sizeOf v := by cases v <;> simp_arith

/-- Membership scan succeeds iff some listed element compares equal. -/
theorem pyMemL_iff (x : Val) (ys : List Val) :
    pyMemL x ys = true ↔ ∃ y ∈ ys, pyEq x y = true := by
  induction ys with
  | nil => simp [pyMemL]
  | cons y ys ih => simp [pyMemL, ih]

/-- Subset scan succeeds iff every element occurs in the other list. -/
theorem pySubset_iff (xs ys : List Val) :
    pySubset xs ys = true ↔ ∀ x ∈ xs, pyMemL x ys = true := by
  induction xs with
  | nil => simp [pySubset]
  | cons x xs ih => simp [pySubset, ih]

/-- Pair-membership scan succeeds iff some listed pair compares equal
componentwise. -/
theorem pyPairMem_iff (p : Val × Val) (qs : List (Val × Val)) :
    pyPairMem p qs = true ↔
      ∃ q ∈ qs, pyEq p.1 q.1 = true ∧ pyEq p.2 q.2 = true := by
  obtain ⟨a, b⟩ := p
  induction qs with
  | nil => simp [pyPairMem]
  | cons q qs ih =>
      obtain ⟨k, w⟩ := q
      simp [pyPairMem, ih]

/-- Pairs-subset scan succeeds iff every pair occurs in the other list. -/
theorem pyPairsSub_iff (ps qs : List (Val × Val)) :
    pyPairsSub ps qs = true ↔ ∀ p ∈ ps, pyPairMem p qs = true := by
  induction ps with
  | nil => simp [pyPairsSub]
  | cons p ps ih => simp [pyPairsSub, ih]

/-- Pointwise list equality from elementwise reflexivity. -/
theorem pyEqList_refl_of (xs : List Val) (h : ∀ x ∈ xs, pyEq x x = true) :
    pyEqList xs xs = true := by
  induction xs with
  | nil => simp [pyEqList]
  | cons x xs ih =>
      simp only [pyEqList, Bool.and_eq_true]
      exact ⟨h x (List.mem_cons_self x xs), ih fun y hy => h y (List.mem_cons_of_mem x hy)⟩

/-- Python equality is reflexive. -/
theorem pyEq_refl (v : Val) : pyEq v v = true := by
  suffices h : ∀ n (v : Val), sizeOf v ≤ n → pyEq v v = true from h (sizeOf v) v le_rfl
  intro n
  induction n with
  | zero => intro v hv; have := Val.sizeOf_pos v; omega
  | succ n ih =>
      intro v hv
      cases v with
      | none => simp [pyEq]
      | bool b => simp [pyEq, numQ]
      | int m => simp [pyEq, numQ]
      | float q => simp [pyEq, numQ]
      | str s => simp [pyEq]
      | list xs =>
          simp only [pyEq]
          refine pyEqList_refl_of xs fun x hx => ih x ?_
          have h1 := List.sizeOf_lt_of_mem hx
          simp at hv
          omega
      | tuple xs =>
          simp only [pyEq]
          refine pyEqList_refl_of xs fun x hx => ih x ?_
          have h1 := List.sizeOf_lt_of_mem hx
          simp at hv
          omega
      | set xs =>
          simp only [pyEq, Bool.and_eq_true]
          have hsub : pySubset xs xs = true := by
            rw [pySubset_iff]
            intro x hx
            rw [pyMemL_iff]
            refine ⟨x, hx, ih x ?_⟩
            have h1 := List.sizeOf_lt_of_mem hx
            simp at hv
            omega
          exact ⟨hsub, hsub⟩
      | dict ps =>
          simp only [pyEq, Bool.and_eq_true]
          have hsub : pyPairsSub ps ps = true := by
            rw [pyPairsSub_iff]
            intro p hp
            rw [pyPairMem_iff]
            have h1 := List.sizeOf_lt_of_mem hp
            simp at hv
            refine ⟨p, hp, ih p.1 ?_, ih p.2 ?_⟩ <;>
              (obtain ⟨p1, p2⟩ := p; simp_arith at h1 ⊢ <;> omega)
          exact ⟨⟨by simp, hsub⟩, hsub⟩

/-- Pointwise list equality is symmetric given elementwise symmetry. -/
theorem pyEqList_symm_of (xs ys : List Val)
    (h : ∀ x ∈ xs, ∀ y ∈ ys, pyEq x y = pyEq y x) :
    pyEqList xs ys = pyEqList ys xs := by
  induction xs generalizing ys with
  | nil => cases ys <;> simp [pyEqList]
  | cons x xs ih =>
      cases ys with
      | nil => simp [pyEqList]
      | cons y ys =>
          simp only [pyEqList]
          rw [h x (by simp) y (by simp),
            ih ys fun a ha b hb => h a (List.mem_cons_of_mem x ha) b (List.mem_cons_of_mem y hb)]

/-- Python equality is symmetric. -/
theorem pyEq_symm (a b : Val) : pyEq a b = pyEq b a := by
  suffices h : ∀ n (a b : Val), sizeOf a + sizeOf b ≤ n → pyEq a b = pyEq b a from
    h _ a b le_rfl
  intro n
  induction n with
  | zero => intro a b h; have := Val.sizeOf_pos a; omega
  | succ n ih =>
      intro a b h
      have hlist : ∀ xs ys : List Val,
          sizeOf xs + sizeOf ys + 2 ≤ n + 1 → pyEqList xs ys = pyEqList ys xs := by
        intro xs ys hs
        refine pyEqList_symm_of xs ys fun x hx y hy => ih x y ?_
        have h1 := List.sizeOf_lt_of_mem hx
        have h2 := List.sizeOf_lt_of_mem hy
        omega
      have hdec : ∀ m k : Nat, decide (m = k) = decide (k = m) := by
        intro m k
        simp [eq_comm]
      have hand : ∀ c p q : Bool, (c && p && q) = (c && q && p) := by decide
      cases a <;> cases b <;>
        first
          | rfl
          | (simp [pyEq, numQ, eq_comm]
             done)
          | (simp only [pyEq]
             simp_arith at h
             exact hlist _ _ (by omega))
          | (simp only [pyEq]
             exact Bool.and_comm _ _)
          | (simp only [pyEq]
             rw [hdec]
             exact hand _ _ _)

/-- Pointwise list equality is transitive given elementwise
transitivity. -/
theorem pyEqList_trans_of (xs ys zs : List Val)
    (ih : ∀ x ∈ xs, ∀ y ∈ ys, ∀ z ∈ zs,
      pyEq x y = true → pyEq y z = true → pyEq x z = true) :
    pyEqList xs ys = true → pyEqList ys zs = true → pyEqList xs zs = true := by
  induction xs generalizing ys zs with
  | nil => cases ys <;> cases zs <;> simp [pyEqList]
  | cons x xs ihx =>
      cases ys with
      | nil => simp [pyEqList]
      | cons y ys =>
          cases zs with
          | nil => simp [pyEqList]
          | cons z zs =>
              simp only [pyEqList, Bool.and_eq_true]
              rintro ⟨h1, h2⟩ ⟨h3, h4⟩
              refine ⟨ih x (by simp) y (by simp) z (by simp) h1 h3,
                ihx ys zs (fun a ha b hb c hc =>
                  ih a (List.mem_cons_of_mem x ha) b (List.mem_cons_of_mem y hb)
                    c (List.mem_cons_of_mem z hc)) h2 h4⟩

/-- Python equality is transitive. -/
theorem pyEq_trans {a b c : Val} (hab : pyEq a b = true) (hbc : pyEq b c = true) :
    pyEq a c = true := by
  suffices h : ∀ n (a b c : Val), sizeOf a + sizeOf b + sizeOf c ≤ n →
      pyEq a b = true → pyEq b c = true → pyEq a c = true from
    h _ a b c le_rfl hab hbc
  clear hab hbc
  intro n
  induction n with
  | zero =>
      intro a b c h hab hbc
      have := Val.sizeOf_pos a
      omega
  | succ n ih =>
      intro a b c h hab hbc
      have hsub : ∀ xs ys zs : List Val,
          sizeOf xs + sizeOf ys + sizeOf zs + 3 ≤ n + 1 →
          pySubset xs ys = true → pySubset ys zs = true →
          pySubset xs zs = true := by
        intro xs ys zs hs h1 h2
        rw [pySubset_iff] at h1 h2 ⊢
        intro x hx
        obtain ⟨y, hy, hxy⟩ := (pyMemL_iff _ _).mp (h1 x hx)
        obtain ⟨z, hz, hyz⟩ := (pyMemL_iff _ _).mp (h2 y hy)
        rw [pyMemL_iff]
        refine ⟨z, hz, ih x y z ?_ hxy hyz⟩
        have e1 := List.sizeOf_lt_of_mem hx
        have e2 := List.sizeOf_lt_of_mem hy
        have e3 := List.sizeOf_lt_of_mem hz
        omega
      have hpairs : ∀ ps qs rs : List (Val × Val),
          sizeOf ps + sizeOf qs + sizeOf rs + 3 ≤ n + 1 →
          pyPairsSub ps qs = true → pyPairsSub qs rs = true →
          pyPairsSub ps rs = true := by
        intro ps qs rs hs h1 h2
        rw [pyPairsSub_iff] at h1 h2 ⊢
        intro p hp
        obtain ⟨q, hq, hpq1, hpq2⟩ := (pyPairMem_iff _ _).mp (h1 p hp)
        obtain ⟨r, hr, hqr1, hqr2⟩ := (pyPairMem_iff _ _).mp (h2 q hq)
        rw [pyPairMem_iff]
        have e1 := List.sizeOf_lt_of_mem hp
        have e2 := List.sizeOf_lt_of_mem hq
        have e3 := List.sizeOf_lt_of_mem hr
        obtain ⟨p1, p2⟩ := p
        obtain ⟨q1, q2⟩ := q
        obtain ⟨r1, r2⟩ := r
        simp_arith at e1 e2 e3
        exact ⟨(r1, r2), hr, ih p1 q1 r1 (by omega) hpq1 hqr1,
          ih p2 q2 r2 (by omega) hpq2 hqr2⟩
      cases a <;> cases b <;> simp [pyEq, numQ] at hab <;>
        cases c <;> simp [pyEq, numQ] at hbc <;>
        first
          | (simp [pyEq, numQ]
             done)
          | (simp [pyEq, numQ]
             first
               | linarith [hab, hbc]
               | exact hab.trans hbc
               | (simp_all
                  done)
             done)
          | (simp only [pyEq]
             rename_i xs ys zs
             try simp_arith at h
             have hel : ∀ x ∈ xs, ∀ y ∈ ys, ∀ z ∈ zs,
                 pyEq x y = true → pyEq y z = true → pyEq x z = true := by
               intro x hx y hy z hz h1 h2
               have e1 := List.sizeOf_lt_of_mem hx
               have e2 := List.sizeOf_lt_of_mem hy
               have e3 := List.sizeOf_lt_of_mem hz
               exact ih x y z (by omega) h1 h2
             exact pyEqList_trans_of xs ys zs hel hab hbc)
          | (simp only [pyEq, Bool.and_eq_true]
             rename_i xs ys zs
             obtain ⟨hab1, hab2⟩ := hab
             obtain ⟨hbc1, hbc2⟩ := hbc
             try simp_arith at h
             exact ⟨hsub xs ys zs (by omega) hab1 hbc1, hsub zs ys xs (by omega) hbc2 hab2⟩)
          | (simp only [pyEq, Bool.and_eq_true, decide_eq_true_eq]
             rename_i ps qs rs
             obtain ⟨⟨hl1, hab1⟩, hab2⟩ := hab
             obtain ⟨⟨hl2, hbc1⟩, hbc2⟩ := hbc
             try simp_arith at h
             exact ⟨⟨hl1.trans hl2, hpairs ps qs rs (by omega) hab1 hbc1⟩,
               hpairs rs qs ps (by omega) hbc2 hab2⟩)

/-- Membership distributes over append. -/
theorem pyMemL_append (x : Val) (as bs : List Val) :
    pyMemL x (as ++ bs) = (pyMemL x as || pyMemL x bs) := by
  induction as with
  | nil => simp [pyMemL]
  | cons a as ih => simp [pyMemL, ih, Bool.or_assoc]

/-- Equal values see the same memberships. -/
theorem pyMemL_congr {x y : Val} (h : pyEq x y = true) (zs : List Val) :
    pyMemL x zs = pyMemL y zs := by
  have hyx : pyEq y x = true := (pyEq_symm y x).trans h
  induction zs with
  | nil => simp [pyMemL]
  | cons z zs ih =>
      simp only [pyMemL, ih]
      cases hxz : pyEq x z with
      | false =>
          cases hyz : pyEq y z with
          | false => rfl
          | true => rw [pyEq_trans h hyz] at hxz; cases hxz
      | true => rw [pyEq_trans hyx hxz]

/-- Membership in the dedup fold: exactly the accumulated and the
scanned elements. -/
theorem dedup_foldl_mem (x : Val) (xs : List Val) : ∀ acc,
    pyMemL x (xs.foldl dedupStep acc) = (pyMemL x acc || pyMemL x xs) := by
  induction xs with
  | nil => intro acc; simp [pyMemL]
  | cons y xs ih =>
      intro acc
      simp only [List.foldl_cons, pyMemL]
      rw [ih]
      unfold dedupStep
      by_cases hy : pyMemL y acc
      · rw [if_pos hy]
        cases hxy : pyEq x y with
        | false => simp
        | true =>
            have hx : pyMemL x acc = true := by rw [pyMemL_congr hxy]; exact hy
            simp [hx]
      · rw [if_neg hy]
        rw [pyMemL_append]
        simp [pyMemL, Bool.or_assoc]

/-- Membership in the order-preserving dedup equals membership in the
input. -/
theorem dedupFold_mem (x : Val) (xs : List Val) :
    pyMemL x (dedupFold xs) = pyMemL x xs := by
  unfold dedupFold
  rw [dedup_foldl_mem]
  simp [pyMemL]

/-- The dedup fold appends a sublist of the scanned input to the
accumulator: first-occurrence order is preserved. -/
theorem dedup_foldl_sublist (xs : List Val) : ∀ acc,
    ∃ zs, xs.foldl dedupStep acc = acc ++ zs ∧ zs.Sublist xs := by
  induction xs with
  | nil => exact fun acc => ⟨[], by simp, by simp⟩
  | cons y xs ih =>
      intro acc
      simp only [List.foldl_cons]
      unfold dedupStep
      by_cases hy : pyMemL y acc
      · rw [if_pos hy]
        obtain ⟨zs, h1, h2⟩ := ih acc
        exact ⟨zs, h1, h2.cons y⟩
      · rw [if_neg hy]
        obtain ⟨zs, h1, h2⟩ := ih (acc ++ [y])
        exact ⟨y :: zs, by simpa [List.append_assoc] using h1, h2.cons₂ y⟩

/-- The order-preserving dedup is a sublist of its input. -/
theorem dedupFold_sublist (xs : List Val) : (dedupFold xs).Sublist xs := by
  obtain ⟨zs, h1, h2⟩ := dedup_foldl_sublist xs []
  unfold dedupFold
  rw [h1]
  simpa using h2

/-- No element of the dedup fold equals an earlier one. -/
theorem dedup_foldl_nodup (xs : List Val) : ∀ acc,
    acc.Pairwise (fun a b => pyEq b a = false) →
    (xs.foldl dedupStep acc).Pairwise (fun a b => pyEq b a = false) := by
  induction xs with
  | nil => intro acc hacc; simpa using hacc
  | cons y xs ih =>
      intro acc hacc
      simp only [List.foldl_cons]
      unfold dedupStep
      by_cases hy : pyMemL y acc
      · rw [if_pos hy]
        exact ih acc hacc
      · rw [if_neg hy]
        refine ih (acc ++ [y]) ?_
        rw [List.pairwise_append]
        refine ⟨hacc, by simp, ?_⟩
        intro a ha b hb
        simp only [List.mem_singleton] at hb
        subst hb
        cases heq : pyEq b a with
        | false => rfl
        | true =>
            exact absurd ((pyMemL_iff b acc).mpr ⟨a, ha, heq⟩) (by simp [hy])

/-- The order-preserving dedup contains no duplicate (no element equals
an earlier one). -/
theorem dedupFold_nodup (xs : List Val) :
    (dedupFold xs).Pairwise (fun a b => pyEq b a = false) :=
  dedup_foldl_nodup xs [] (by simp)

/-- Membership in a filtered list, for a predicate that respects Python
equality. -/
theorem pyMemL_filter (p : Val → Bool) (hcong : ∀ a b, pyEq a b = true → p a = p b)
    (x : Val) (xs : List Val) :
    pyMemL x (xs.filter p) = (pyMemL x xs && p x) := by
  induction xs with
  | nil => simp [pyMemL]
  | cons y xs ih =>
      cases hp : p y with
      | true =>
          rw [List.filter_cons_of_pos hp]
          simp only [pyMemL, ih]
          cases hxy : pyEq x y with
          | false => simp
          | true =>
              have hpx : p x = true := by rw [hcong x y hxy]; exact hp
              simp [hpx]
      | false =>
          rw [List.filter_cons_of_neg (by simp [hp])]
          simp only [pyMemL, ih]
          cases hxy : pyEq x y with
          | false => simp
          | true =>
              have hpx : p x = false := by rw [hcong x y hxy]; exact hp
              simp [hpx]

/-! ## Reduction of the set-algebra filters on list inputs -/

/-- A comprehension whose condition never raises filters purely. -/
theorem listFilterM_ok {p : Val → Except PyErr Bool} {f : Val → Bool}
    (h : ∀ e, p e = .ok (f e)) (xs : List Val) :
    listFilterM p xs = .ok (xs.filter f) := by
  induction xs with
  | nil => rfl
  | cons x xs ih =>
      simp only [listFilterM, h x, ih, List.filter_cons]
      cases hf : f x <;> rfl

/-- The fallback branch of union on two lists. -/
theorem union_lists (xs ys : List Val) :
    union (.list xs) (.list ys) = .ok (.list (dedupFold (xs ++ ys))) := rfl

/-- The fallback branch of intersect on two lists. -/
theorem intersect_lists (xs ys : List Val) :
    intersect (.list xs) (.list ys) =
      .ok (.list (dedupFold (xs.filter (fun e => pyMemL e ys)))) := by
  unfold intersect
  rw [if_neg (by simp [isInstHashable])]
  show (do
    let fil ← listFilterM (fun e => pyContains (.list ys) e) xs
    unique (.list fil)) = _
  rw [@listFilterM_ok (fun e => pyContains (.list ys) e) (fun e => pyMemL e ys)
    (fun e => rfl) xs]
  rfl

/-- The fallback branch of difference on two lists. -/
theorem difference_lists (xs ys : List Val) :
    difference (.list xs) (.list ys) =
      .ok (.list (dedupFold (xs.filter (fun e => !pyMemL e ys)))) := by
  unfold difference
  rw [if_neg (by simp [isInstHashable])]
  show (do
    let fil ← listFilterM (fun e => Bool.not <$> pyContains (.list ys) e) xs
    unique (.list fil)) = _
  rw [@listFilterM_ok (fun e => Bool.not <$> pyContains (.list ys) e)
    (fun e => !pyMemL e ys) (fun e => rfl) xs]
  rfl

/-- The fallback branch of symmetric_difference on two lists: the
elements of the order-preserving union that do not occur in the
order-preserving intersection, deduplicated. -/
theorem symmetric_difference_lists (xs ys : List Val) :
    symmetric_difference (.list xs) (.list ys) =
      .ok (.list (dedupFold ((dedupFold (xs ++ ys)).filter
        (fun e => !pyMemL e (dedupFold (xs.filter (fun e2 => pyMemL e2 ys))))))) := by
  unfold symmetric_difference
  rw [if_neg (by simp [isInstHashable])]
  show (do
    let u ← union (.list xs) (.list ys)
    let us ← pyIter u
    let fil ← listFilterM (fun e => do
      let i ← intersect (.list xs) (.list ys)
      Bool.not <$> pyContains i e) us
    unique (.list fil)) = _
  rw [union_lists]
  show (do
    let fil ← listFilterM (fun e => do
      let i ← intersect (.list xs) (.list ys)
      Bool.not <$> pyContains i e) (dedupFold (xs ++ ys))
    unique (.list fil)) = _
  rw [@listFilterM_ok
    (fun e => do
      let i ← intersect (.list xs) (.list ys)
      Bool.not <$> pyContains i e)
    (fun e => !pyMemL e (dedupFold (xs.filter (fun e2 => pyMemL e2 ys))))
    (fun e => by rw [intersect_lists]; rfl) (dedupFold (xs ++ ys))]
  rfl

/-! ## Claim C6: SymmetricDifference in the order-preserving fallback -/

/-- C6: in the order-preserving fallback, SymmetricDifference contains
an element exactly when it occurs in exactly one of the two inputs
(Union minus Intersect), without duplicates, in the order produced by
Union (its output is a sublist of Union's output); on the quoted example
it yields [1, 3, 6], set-equal to {1, 3, 6}. -/
theorem symmetric_difference_spec :
    (∀ xs ys : List Val, ∃ us zs : List Val,
      union (.list xs) (.list ys) = .ok (.list us) ∧
      symmetric_difference (.list xs) (.list ys) = .ok (.list zs) ∧
      zs.Sublist us ∧
      (∀ v, pyMemL v zs = (pyMemL v xs ^^ pyMemL v ys)) ∧
      zs.Pairwise (fun a b => pyEq b a = false)) ∧
    symmetric_difference (.list [.int 1, .int 2, .int 3, .int 4])
        (.list [.int 2, .int 4, .int 6]) =
      .ok (.list [.int 1, .int 3, .int 6]) := by
  constructor
  · intro xs ys
    refine ⟨dedupFold (xs ++ ys), _, union_lists xs ys,
      symmetric_difference_lists xs ys, ?_, ?_, ?_⟩
    · exact (dedupFold_sublist _).trans (List.filter_sublist _)
    · intro v
      rw [dedupFold_mem,
        pyMemL_filter _ (fun a b hab => by rw [pyMemL_congr hab]) v _,
        dedupFold_mem, pyMemL_append]
      have hIv : pyMemL v (dedupFold (xs.filter (fun e2 => pyMemL e2 ys))) =
          (pyMemL v xs && pyMemL v ys) := by
        rw [dedupFold_mem,
          pyMemL_filter _ (fun a b hab => by rw [pyMemL_congr hab]) v _]
      simp only [hIv]
      cases pyMemL v xs <;> cases pyMemL v ys <;> rfl
    · exact dedupFold_nodup _
  · rw [symmetric_difference_lists]
    simp [dedupFold, dedupStep, pyMemL, pyEq, numQ, List.filter]

/-! ## Claim C1: which path the dedup/set filters take -/

/-- C1 counterexample: every element of the list [1, 2, 1] supports
hash-based membership testing, yet unique takes the order-preserving
fallback and returns a sequence, not an unordered set — the branch tests
the container with isinstance(values, Hashable), not the elements; and
likewise union on two lists of hashable elements returns a sequence. -/
theorem unique_counterexample :
    [Val.int 1, Val.int 2, Val.int 1].all elemHashable = true ∧
    unique (.list [.int 1, .int 2, .int 1]) = .ok (.list [.int 1, .int 2]) ∧
    [Val.int 1, Val.int 2].all elemHashable = true ∧
    [Val.int 2, Val.int 3].all elemHashable = true ∧
    union (.list [.int 1, .int 2]) (.list [.int 2, .int 3]) =
      .ok (.list [.int 1, .int 2, .int 3]) := by
  refine ⟨by simp [elemHashable], ?_, by simp [elemHashable], by simp [elemHashable], ?_⟩
  · simp [unique, isInstHashable, pyIter, dedupFold, dedupStep, pyMemL, pyEq, numQ]
  · rw [union_lists]
    simp [dedupFold, dedupStep, pyMemL, pyEq, numQ]

/-- A computation of the shape of every both-Hashable branch can only
succeed with an unordered set. -/
theorem setpath_ok (g : List Val → List Val → List Val) {a b s : Val}
    (h : (do
      let s1 ← pySetElems a
      let s2 ← pySetElems b
      pure (Val.set (g s1 s2)) : Except PyErr Val) = .ok s) :
    ∃ es, s = .set es := by
  cases h1 : pySetElems a with
  | error e =>
      rw [h1] at h
      simp [Bind.bind, Except.bind] at h
  | ok s1 =>
      rw [h1] at h
      cases h2 : pySetElems b with
      | error e =>
          rw [h2] at h
          simp [Bind.bind, Except.bind] at h
      | ok s2 =>
          rw [h2] at h
          simp only [Bind.bind, Except.bind, pure, Except.pure, Except.ok.injEq] at h
          exact ⟨g s1 s2, h.symm⟩

/-- C1 as the code has it: the unordered-set path is taken exactly when
the input container itself is an instance of collections.Hashable (for
the binary filters: when both inputs are), regardless of the elements'
hashability; a successful set path returns an unordered set, and the
fallback returns the order-preserving first-occurrence sequence (a
sublist of the scanned input, with the same membership and no
duplicates; for the binary filters on lists, membership is the
corresponding boolean combination of the two inputs' memberships). -/
theorem hashable_path_selection :
    (∀ v, isInstHashable v = true → unique v = pySet v) ∧
    (∀ v xs, isInstHashable v = false → pyIter v = .ok xs →
      unique v = .ok (.list (dedupFold xs)) ∧
      (dedupFold xs).Sublist xs ∧
      (∀ x, pyMemL x (dedupFold xs) = pyMemL x xs) ∧
      (dedupFold xs).Pairwise (fun a b => pyEq b a = false)) ∧
    (∀ v s, isInstHashable v = true → unique v = .ok s → ∃ es, s = .set es) ∧
    (∀ a b s, isInstHashable a = true → isInstHashable b = true →
      (union a b = .ok s ∨ intersect a b = .ok s ∨ difference a b = .ok s ∨
        symmetric_difference a b = .ok s) → ∃ es, s = .set es) ∧
    (∀ xs ys : List Val, ∃ zs, union (.list xs) (.list ys) = .ok (.list zs) ∧
      zs.Sublist (xs ++ ys) ∧
      (∀ x, pyMemL x zs = (pyMemL x xs || pyMemL x ys)) ∧
      zs.Pairwise (fun a b => pyEq b a = false)) ∧
    (∀ xs ys : List Val, ∃ zs, intersect (.list xs) (.list ys) = .ok (.list zs) ∧
      zs.Sublist xs ∧
      (∀ x, pyMemL x zs = (pyMemL x xs && pyMemL x ys)) ∧
      zs.Pairwise (fun a b => pyEq b a = false)) ∧
    (∀ xs ys : List Val, ∃ zs, difference (.list xs) (.list ys) = .ok (.list zs) ∧
      zs.Sublist xs ∧
      (∀ x, pyMemL x zs = (pyMemL x xs && !pyMemL x ys)) ∧
      zs.Pairwise (fun a b => pyEq b a = false)) := by
  have hcong : ∀ ys : List Val, ∀ a b : Val, pyEq a b = true →
      pyMemL a ys = pyMemL b ys := fun ys a b hab => pyMemL_congr hab ys
  refine ⟨?_, ?_, ?_, ?_, ?_, ?_, ?_⟩
  · intro v h
    unfold unique
    rw [if_pos h]
  · intro v xs h hiter
    have hu : unique v = .ok (.list (dedupFold xs)) := by
      unfold unique
      rw [if_neg (by simp [h])]
      show (do
        let xs ← pyIter v
        pure (Val.list (dedupFold xs))) = _
      rw [hiter]
      rfl
    exact ⟨hu, dedupFold_sublist xs, fun x => dedupFold_mem x xs, dedupFold_nodup xs⟩
  · intro v s h hu
    unfold unique at hu
    rw [if_pos h] at hu
    unfold pySet at hu
    cases h1 : pySetElems v with
    | error e =>
        rw [h1] at hu
        simp [Bind.bind, Except.bind] at hu
    | ok es =>
        rw [h1] at hu
        simp only [Bind.bind, Except.bind, pure, Except.pure, Except.ok.injEq] at hu
        exact ⟨es, hu.symm⟩
  · intro a b s ha hb h
    rcases h with h | h | h | h
    · unfold union at h
      rw [if_pos (by simp [ha, hb])] at h
      exact setpath_ok (fun s1 s2 => dedupFold (s1 ++ s2)) h
    · unfold intersect at h
      rw [if_pos (by simp [ha, hb])] at h
      exact setpath_ok (fun s1 s2 => s1.filter (fun x => pyMemL x s2)) h
    · unfold difference at h
      rw [if_pos (by simp [ha, hb])] at h
      exact setpath_ok (fun s1 s2 => s1.filter (fun x => !pyMemL x s2)) h
    · unfold symmetric_difference at h
      rw [if_pos (by simp [ha, hb])] at h
      exact setpath_ok
        (fun s1 s2 => s1.filter (fun x => !pyMemL x s2) ++ s2.filter (fun x => !pyMemL x s1)) h
  · intro xs ys
    refine ⟨dedupFold (xs ++ ys), union_lists xs ys, dedupFold_sublist _, ?_, dedupFold_nodup _⟩
    intro x
    rw [dedupFold_mem, pyMemL_append]
  · intro xs ys
    refine ⟨_, intersect_lists xs ys,
      (dedupFold_sublist _).trans (List.filter_sublist _), ?_, dedupFold_nodup _⟩
    intro x
    rw [dedupFold_mem, pyMemL_filter _ (hcong ys) x _]
  · intro xs ys
    refine ⟨_, difference_lists xs ys,
      (dedupFold_sublist _).trans (List.filter_sublist _), ?_, dedupFold_nodup _⟩
    intro x
    rw [dedupFold_mem,
      pyMemL_filter _ (fun a b hab => by rw [hcong ys a b hab]) x _]

/-- Witness for C1's corrected statement at concrete inputs: a tuple
container takes the set path, a list container takes the fallback, and
a successful set-path union of two tuples yields a set. -/
theorem hashable_path_selection_witness :
    unique (.tuple [.int 1, .int 1]) = pySet (.tuple [.int 1, .int 1]) ∧
    unique (.list [.int 1, .int 2, .int 1]) =
      .ok (.list (dedupFold [.int 1, .int 2, .int 1])) ∧
    (∃ es, Val.set [Val.int 1, Val.int 2] = .set es) := by
  refine ⟨hashable_path_selection.1 _ rfl,
    (hashable_path_selection.2.1 (.list [.int 1, .int 2, .int 1])
      [.int 1, .int 2, .int 1] rfl rfl).1,
    hashable_path_selection.2.2.2.1 (.tuple [.int 1]) (.tuple [.int 2]) _ rfl rfl
      (Or.inl ?_)⟩
  simp [union, isInstHashable, pySetElems, pyIter, elemHashable, dedupFold,
    dedupStep, pyMemL, pyEq, numQ, Bind.bind, Except.bind, pure, Except.pure]

/-! ## Claim C7: Min, Max and the empty-sequence errors -/

/-- Scalar values, on which Python 2 comparison is modelled exactly. -/
def isScalar : Val → Bool
  | .none => true
  | .bool _ => true
  | .int _ => true
  | .float _ => true
  | .str _ => true
  | _ => false

/-- Character payload of a string value. -/
def strData : Val → List Char
  | .str s => s.data
  | _ => []

/-- Linear-order key realising Python 2's ordering on scalars: rank
first (None, then numbers, then strings), then numeric value, then the
character sequence. -/
def skey (v : Val) : Lex (Nat × Lex (ℚ × List Char)) :=
  toLex (pyRank v, toLex ((numQ v).getD 0, strData v))

/-- Lift a numeric comparison to the key order (equal ranks, equal
character parts). -/
theorem compares_lex_q {o : Ordering} {x y : ℚ} (h : o.Compares x y) (r : Nat) :
    o.Compares (toLex (r, toLex (x, ([] : List Char)))) (toLex (r, toLex (y, []))) := by
  cases o with
  | lt =>
      have h' : x < y := h
      show toLex (r, toLex (x, ([] : List Char))) < toLex (r, toLex (y, []))
      exact (Prod.Lex.lt_iff _ _).mpr
        (Or.inr ⟨rfl, (Prod.Lex.lt_iff _ _).mpr (Or.inl h')⟩)
  | eq =>
      have h' : x = y := h
      show toLex (r, toLex (x, ([] : List Char))) = toLex (r, toLex (y, []))
      rw [h']
  | gt =>
      have h' : y < x := h
      show toLex (r, toLex (y, ([] : List Char))) < toLex (r, toLex (x, []))
      exact (Prod.Lex.lt_iff _ _).mpr
        (Or.inr ⟨rfl, (Prod.Lex.lt_iff _ _).mpr (Or.inl h')⟩)

/-- Lift a character-sequence comparison to the key order. -/
theorem compares_lex_s {o : Ordering} {s t : List Char} (h : o.Compares s t)
    (r : Nat) (q : ℚ) :
    o.Compares (toLex (r, toLex (q, s))) (toLex (r, toLex (q, t))) := by
  cases o with
  | lt =>
      have h' : s < t := h
      show toLex (r, toLex (q, s)) < toLex (r, toLex (q, t))
      exact (Prod.Lex.lt_iff _ _).mpr
        (Or.inr ⟨rfl, (Prod.Lex.lt_iff _ _).mpr (Or.inr ⟨rfl, h'⟩)⟩)
  | eq =>
      have h' : s = t := h
      show toLex (r, toLex (q, s)) = toLex (r, toLex (q, t))
      rw [h']
  | gt =>
      have h' : t < s := h
      show toLex (r, toLex (q, t)) < toLex (r, toLex (q, s))
      exact (Prod.Lex.lt_iff _ _).mpr
        (Or.inr ⟨rfl, (Prod.Lex.lt_iff _ _).mpr (Or.inr ⟨rfl, h'⟩)⟩)

/-- A rank comparison between distinct ranks decides the key order. -/
theorem compares_cmp_rank {r1 r2 : Nat} (h : r1 ≠ r2)
    (k1 k2 : Lex (ℚ × List Char)) :
    (cmp r1 r2).Compares (toLex (r1, k1)) (toLex (r2, k2)) := by
  rcases lt_trichotomy r1 r2 with hl | he | hg
  · have hc : cmp r1 r2 = .lt := (cmp_compares r1 r2).eq_lt.mpr hl
    rw [hc]
    show toLex (r1, k1) < toLex (r2, k2)
    exact (Prod.Lex.lt_iff _ _).mpr (Or.inl hl)
  · exact absurd he h
  · have hc : cmp r1 r2 = .gt := (cmp_compares r1 r2).eq_gt.mpr hg
    rw [hc]
    show toLex (r2, k2) < toLex (r1, k1)
    exact (Prod.Lex.lt_iff _ _).mpr (Or.inl hg)

/-- On scalars pyCmp compares exactly like the linear-order key. -/
theorem pyCmp_scalar (a b : Val) (ha : isScalar a = true) (hb : isScalar b = true) :
    (pyCmp a b).Compares (skey a) (skey b) := by
  cases a <;> simp [isScalar] at ha <;> cases b <;> simp [isScalar] at hb <;>
    first
      | (simp only [pyCmp, numQ, skey, pyRank, strData, Option.getD]
         exact compares_lex_q (cmp_compares _ _) _)
      | (simp only [pyCmp, numQ, skey, pyRank, strData, Option.getD]
         exact compares_lex_s (cmp_compares _ _) _ _)
      | (simp only [pyCmp, numQ, skey, pyRank, strData, Option.getD]
         have hc : cmp (0 : Nat) 0 = .eq := (cmp_compares 0 0).eq_eq.mpr rfl
         rw [hc]
         exact rfl)
      | (simp only [pyCmp, numQ, skey, pyRank, strData, Option.getD]
         refine compares_cmp_rank ?_ _ _
         norm_num)

/-- Strict comparison of scalars through the key order. -/
theorem pyLt_scalar {a b : Val} (ha : isScalar a = true) (hb : isScalar b = true) :
    pyLt a b = true ↔ skey a < skey b := by
  simp only [pyLt, decide_eq_true_eq]
  exact (pyCmp_scalar a b ha hb).eq_lt

/-- Reverse strict comparison of scalars through the key order. -/
theorem pyGt_scalar {a b : Val} (ha : isScalar a = true) (hb : isScalar b = true) :
    pyGt a b = true ↔ skey b < skey a := by
  simp only [pyGt, decide_eq_true_eq]
  exact (pyCmp_scalar a b ha hb).eq_gt

/-- Non-strict comparison of scalars through the key order. -/
theorem pyLe_scalar {a b : Val} (ha : isScalar a = true) (hb : isScalar b = true) :
    pyLe a b = true ↔ skey a ≤ skey b := by
  unfold pyLe
  cases hg : pyGt a b with
  | false =>
      simp only [Bool.not_false, true_iff]
      have : ¬ skey b < skey a := by
        rw [← pyGt_scalar ha hb, hg]
        exact Bool.false_ne_true
      exact le_of_not_lt this
  | true =>
      have hlt := (pyGt_scalar ha hb).mp hg
      simp only [Bool.not_true]
      constructor
      · intro hf
        cases hf
      · intro hle
        exact absurd hlt (not_lt_of_le hle)

/-- The running-minimum fold returns an element that is a lower bound
of all scanned elements (under Python comparison), for scalars. -/
theorem foldl_min_spec : ∀ (xs : List Val) (x : Val),
    (∀ y ∈ x :: xs, isScalar y = true) →
    (xs.foldl (fun acc y => if pyLt y acc then y else acc) x) ∈ x :: xs ∧
    ∀ y ∈ x :: xs,
      pyLe (xs.foldl (fun acc y => if pyLt y acc then y else acc) x) y = true := by
  intro xs
  induction xs with
  | nil =>
      intro x hall
      refine ⟨by simp, ?_⟩
      intro y hy
      simp only [List.mem_singleton] at hy
      subst hy
      simp only [List.foldl_nil]
      rw [pyLe_scalar (hall y (by simp)) (hall y (by simp))]
  | cons y ys ih =>
      intro x hall
      have hx : isScalar x = true := hall x (by simp)
      have hy : isScalar y = true := hall y (by simp)
      simp only [List.foldl_cons]
      by_cases hxy : pyLt y x = true
      · rw [if_pos hxy]
        obtain ⟨hmem, hmin⟩ := ih y (by
          intro z hz
          rcases List.mem_cons.mp hz with hz | hz
          · subst hz; exact hy
          · exact hall z (by simp [hz]))
        set m := ys.foldl (fun acc y => if pyLt y acc then y else acc) y with hm
        have hms : isScalar m = true := by
          rcases List.mem_cons.mp hmem with h1 | h1
          · rw [h1]; exact hy
          · exact hall m (by simp [h1])
        refine ⟨?_, ?_⟩
        · rcases List.mem_cons.mp hmem with h1 | h1
          · simp [h1]
          · simp [h1]
        · intro z hz
          rcases List.mem_cons.mp hz with hz | hz
          · subst hz
            have h1 : skey m ≤ skey y := (pyLe_scalar hms hy).mp (hmin y (by simp))
            have h2 : skey y < skey z := (pyLt_scalar hy hx).mp hxy
            exact (pyLe_scalar hms hx).mpr (le_of_lt (lt_of_le_of_lt h1 h2))
          · rcases List.mem_cons.mp hz with hz2 | hz2
            · subst hz2
              exact hmin z (by simp)
            · exact hmin z (by simp [hz2])
      · rw [if_neg hxy]
        obtain ⟨hmem, hmin⟩ := ih x (by
          intro z hz
          rcases List.mem_cons.mp hz with hz | hz
          · subst hz; exact hx
          · exact hall z (by simp [hz]))
        set m := ys.foldl (fun acc y => if pyLt y acc then y else acc) x with hm
        have hms : isScalar m = true := by
          rcases List.mem_cons.mp hmem with h1 | h1
          · rw [h1]; exact hx
          · exact hall m (by simp [h1])
        refine ⟨?_, ?_⟩
        · rcases List.mem_cons.mp hmem with h1 | h1
          · simp [h1]
          · simp [h1]
        · intro z hz
          rcases List.mem_cons.mp hz with hz | hz
          · subst hz
            exact hmin z (by simp)
          · rcases List.mem_cons.mp hz with hz2 | hz2
            · subst hz2
              have h1 : skey m ≤ skey x := (pyLe_scalar hms hx).mp (hmin x (by simp))
              have h2 : ¬ skey z < skey x := fun hlt => hxy ((pyLt_scalar hy hx).mpr hlt)
              exact (pyLe_scalar hms hy).mpr (le_trans h1 (le_of_not_lt h2))
            · exact hmin z (by simp [hz2])

/-- The running-maximum fold returns an element that is an upper bound
of all scanned elements (under Python comparison), for scalars. -/
theorem foldl_max_spec : ∀ (xs : List Val) (x : Val),
    (∀ y ∈ x :: xs, isScalar y = true) →
    (xs.foldl (fun acc y => if pyGt y acc then y else acc) x) ∈ x :: xs ∧
    ∀ y ∈ x :: xs,
      pyLe y (xs.foldl (fun acc y => if pyGt y acc then y else acc) x) = true := by
  intro xs
  induction xs with
  | nil =>
      intro x hall
      refine ⟨by simp, ?_⟩
      intro y hy
      simp only [List.mem_singleton] at hy
      subst hy
      simp only [List.foldl_nil]
      rw [pyLe_scalar (hall y (by simp)) (hall y (by simp))]
  | cons y ys ih =>
      intro x hall
      have hx : isScalar x = true := hall x (by simp)
      have hy : isScalar y = true := hall y (by simp)
      simp only [List.foldl_cons]
      by_cases hxy : pyGt y x = true
      · rw [if_pos hxy]
        obtain ⟨hmem, hmax⟩ := ih y (by
          intro z hz
          rcases List.mem_cons.mp hz with hz | hz
          · subst hz; exact hy
          · exact hall z (by simp [hz]))
        set m := ys.foldl (fun acc y => if pyGt y acc then y else acc) y with hm
        have hms : isScalar m = true := by
          rcases List.mem_cons.mp hmem with h1 | h1
          · rw [h1]; exact hy
          · exact hall m (by simp [h1])
        refine ⟨?_, ?_⟩
        · rcases List.mem_cons.mp hmem with h1 | h1
          · simp [h1]
          · simp [h1]
        · intro z hz
          rcases List.mem_cons.mp hz with hz | hz
          · subst hz
            have h1 : skey y ≤ skey m := (pyLe_scalar hy hms).mp (hmax y (by simp))
            have h2 : skey z < skey y := (pyGt_scalar hy hx).mp hxy
            exact (pyLe_scalar hx hms).mpr (le_of_lt (lt_of_lt_of_le h2 h1))
          · rcases List.mem_cons.mp hz with hz2 | hz2
            · subst hz2
              exact hmax z (by simp)
            · exact hmax z (by simp [hz2])
      · rw [if_neg hxy]
        obtain ⟨hmem, hmax⟩ := ih x (by
          intro z hz
          rcases List.mem_cons.mp hz with hz | hz
          · subst hz; exact hx
          · exact hall z (by simp [hz]))
        set m := ys.foldl (fun acc y => if pyGt y acc then y else acc) x with hm
        have hms : isScalar m = true := by
          rcases List.mem_cons.mp hmem with h1 | h1
          · rw [h1]; exact hx
          · exact hall m (by simp [h1])
        refine ⟨?_, ?_⟩
        · rcases List.mem_cons.mp hmem with h1 | h1
          · simp [h1]
          · simp [h1]
        · intro z hz
          rcases List.mem_cons.mp hz with hz | hz
          · subst hz
            exact hmax z (by simp)
          · rcases List.mem_cons.mp hz with hz2 | hz2
            · subst hz2
              have h1 : skey x ≤ skey m := (pyLe_scalar hx hms).mp (hmax x (by simp))
              have h2 : ¬ skey x < skey z := fun hlt => hxy ((pyGt_scalar hy hx).mpr hlt)
              exact (pyLe_scalar hy hms).mpr (le_trans (le_of_not_lt h2) h1)
            · exact hmax z (by simp [hz2])

/-- C7: on a non-empty sequence of scalars Min/Max return an element of
the sequence that is a lower/upper bound of every element under Python's
natural ordering; on an empty sequence Min and Max fail with the
EmptyInputError (Python's ValueError) and Average fails with the
DivisionByZeroError, all surfaced to the caller as errors. -/
theorem minmax_spec :
    (∀ x xs, (∀ y ∈ x :: xs, isScalar y = true) →
      ∃ m, lst_min (.list (x :: xs)) = .ok m ∧ m ∈ x :: xs ∧
        ∀ y ∈ x :: xs, pyLe m y = true) ∧
    (∀ x xs, (∀ y ∈ x :: xs, isScalar y = true) →
      ∃ m, lst_max (.list (x :: xs)) = .ok m ∧ m ∈ x :: xs ∧
        ∀ y ∈ x :: xs, pyLe y m = true) ∧
    lst_min (.list []) = .error .emptyInput ∧
    lst_max (.list []) = .error .emptyInput ∧
    lst_avg (.list []) = .error .zeroDivision := by
  refine ⟨?_, ?_, rfl, rfl, rfl⟩
  · intro x xs hall
    obtain ⟨hmem, hmin⟩ := foldl_min_spec xs x hall
    exact ⟨_, rfl, hmem, hmin⟩
  · intro x xs hall
    obtain ⟨hmem, hmax⟩ := foldl_max_spec xs x hall
    exact ⟨_, rfl, hmem, hmax⟩

/-- Witness for C7 on the docstring's list [1,2,3,4] (reordered to
[3,1,2,4] so the fold actually moves): all elements are scalars, and
Min/Max return a bounding element. -/
theorem minmax_spec_witness :
    (∀ y ∈ [Val.int 3, Val.int 1, Val.int 2, Val.int 4], isScalar y = true) ∧
    (∃ m, lst_min (.list [.int 3, .int 1, .int 2, .int 4]) = .ok m ∧
      m ∈ [Val.int 3, Val.int 1, Val.int 2, Val.int 4] ∧
      ∀ y ∈ [Val.int 3, Val.int 1, Val.int 2, Val.int 4], pyLe m y = true) ∧
    (∃ m, lst_max (.list [.int 3, .int 1, .int 2, .int 4]) = .ok m ∧
      m ∈ [Val.int 3, Val.int 1, Val.int 2, Val.int 4] ∧
      ∀ y ∈ [Val.int 3, Val.int 1, Val.int 2, Val.int 4], pyLe y m = true) ∧
    lst_avg (.list []) = .error .zeroDivision :=
  ⟨by decide,
   minmax_spec.1 (.int 3) [.int 1, .int 2, .int 4] (by decide),
   minmax_spec.2.1 (.int 3) [.int 1, .int 2, .int 4] (by decide),
   minmax_spec.2.2.2.2⟩

/-! ## Claim C10: absent value versus empty groups tuple -/

/-- Every parse leaves a suffix of the input unconsumed. -/
theorem parses_suffix (flag : Nat) : ∀ n (r : Rgx) (s : List Char), s.length < n →
    ∀ p ∈ parses flag r s, p.1 <:+ s := by
  intro n
  induction n with
  | zero => intro r s hs p hp; exact absurd hs (Nat.not_lt_zero _)
  | succ n ihn =>
      intro r
      induction r with
      | eps =>
          intro s hs p hp
          simp only [parses, List.mem_singleton] at hp
          subst hp
          exact List.suffix_refl s
      | char c =>
          intro s hs p hp
          cases s with
          | nil => simp [parses] at hp
          | cons d rest =>
              simp only [parses] at hp
              by_cases hc : rchar flag c d = true
              · rw [if_pos hc] at hp
                simp only [List.mem_singleton] at hp
                subst hp
                exact List.suffix_cons d rest
              · rw [if_neg hc] at hp
                simp at hp
      | any =>
          intro s hs p hp
          cases s with
          | nil => simp [parses] at hp
          | cons d rest =>
              simp only [parses] at hp
              by_cases hc : rany d = true
              · rw [if_pos hc] at hp
                simp only [List.mem_singleton] at hp
                subst hp
                exact List.suffix_cons d rest
              · rw [if_neg hc] at hp
                simp at hp
      | concat a b iha ihb =>
          intro s hs p hp
          simp only [parses, List.mem_flatMap] at hp
          obtain ⟨q, hq, hp2⟩ := hp
          have hqs : q.1 <:+ s := iha s hs q hq
          rw [dif_pos hqs.length_le] at hp2
          simp only [List.mem_map] at hp2
          obtain ⟨q2, hq2, hpe⟩ := hp2
          have hble : q.1.length ≤ s.length := hqs.length_le
          have hq2s : q2.1 <:+ q.1 := ihb q.1 (by omega) q2 hq2
          rw [← hpe]
          exact hq2s.trans hqs
      | alt a b iha ihb =>
          intro s hs p hp
          simp only [parses, List.mem_append, List.mem_map] at hp
          rcases hp with ⟨q, hq, hpe⟩ | ⟨q, hq, hpe⟩
          · rw [← hpe]
            exact iha s hs q hq
          · rw [← hpe]
            exact ihb s hs q hq
      | star a iha =>
          intro s hs p hp
          rw [parses] at hp
          simp only [List.mem_append, List.mem_flatMap, List.mem_singleton] at hp
          rcases hp with ⟨q, hq, hp2⟩ | hpe
          · by_cases hlt : q.1.length < s.length
            · rw [dif_pos hlt] at hp2
              simp only [List.mem_map] at hp2
              obtain ⟨q2, hq2, hpe⟩ := hp2
              have h2 : q2.1 <:+ q.1 := ihn (.star a) q.1 (by omega) q2 hq2
              have h1 : q.1 <:+ s := iha s hs q hq
              rw [← hpe]
              exact h2.trans h1
            · rw [dif_neg hlt] at hp2
              simp at hp2
          · subst hpe
            exact List.suffix_refl s
      | group a iha =>
          intro s hs p hp
          simp only [parses, List.mem_map] at hp
          obtain ⟨q, hq, hpe⟩ := hp
          rw [← hpe]
          exact iha s hs q hq

/-- Soundness of the matcher: every parse consumed a prefix the pattern
matches. -/
theorem parses_sound (flag : Nat) : ∀ n (r : Rgx) (s : List Char), s.length < n →
    ∀ p ∈ parses flag r s, ∃ m, s = m ++ p.1 ∧ RMatch flag r m := by
  intro n
  induction n with
  | zero => intro r s hs p hp; exact absurd hs (Nat.not_lt_zero _)
  | succ n ihn =>
      intro r
      induction r with
      | eps =>
          intro s hs p hp
          simp only [parses, List.mem_singleton] at hp
          subst hp
          exact ⟨[], by simp, RMatch.eps⟩
      | char c =>
          intro s hs p hp
          cases s with
          | nil => simp [parses] at hp
          | cons d rest =>
              simp only [parses] at hp
              by_cases hc : rchar flag c d = true
              · rw [if_pos hc] at hp
                simp only [List.mem_singleton] at hp
                subst hp
                exact ⟨[d], by simp, RMatch.char hc⟩
              · rw [if_neg hc] at hp
                simp at hp
      | any =>
          intro s hs p hp
          cases s with
          | nil => simp [parses] at hp
          | cons d rest =>
              simp only [parses] at hp
              by_cases hc : rany d = true
              · rw [if_pos hc] at hp
                simp only [List.mem_singleton] at hp
                subst hp
                exact ⟨[d], by simp, RMatch.any hc⟩
              · rw [if_neg hc] at hp
                simp at hp
      | concat a b iha ihb =>
          intro s hs p hp
          simp only [parses, List.mem_flatMap] at hp
          obtain ⟨q, hq, hp2⟩ := hp
          have hqs : q.1 <:+ s := parses_suffix flag (n + 1) a s hs q hq
          rw [dif_pos hqs.length_le] at hp2
          simp only [List.mem_map] at hp2
          obtain ⟨q2, hq2, hpe⟩ := hp2
          have hble : q.1.length ≤ s.length := hqs.length_le
          obtain ⟨m1, hm1, hr1⟩ := iha s hs q hq
          obtain ⟨m2, hm2, hr2⟩ := ihb q.1 (by omega) q2 hq2
          refine ⟨m1 ++ m2, ?_, RMatch.concat hr1 hr2⟩
          rw [← hpe]
          rw [hm1, hm2, List.append_assoc]
      | alt a b iha ihb =>
          intro s hs p hp
          simp only [parses, List.mem_append, List.mem_map] at hp
          rcases hp with ⟨q, hq, hpe⟩ | ⟨q, hq, hpe⟩
          · obtain ⟨m, hm, hr⟩ := iha s hs q hq
            exact ⟨m, by rw [← hpe]; exact hm, RMatch.altL hr⟩
          · obtain ⟨m, hm, hr⟩ := ihb s hs q hq
            exact ⟨m, by rw [← hpe]; exact hm, RMatch.altR hr⟩
      | star a iha =>
          intro s hs p hp
          rw [parses] at hp
          simp only [List.mem_append, List.mem_flatMap, List.mem_singleton] at hp
          rcases hp with ⟨q, hq, hp2⟩ | hpe
          · by_cases hlt : q.1.length < s.length
            · rw [dif_pos hlt] at hp2
              simp only [List.mem_map] at hp2
              obtain ⟨q2, hq2, hpe⟩ := hp2
              obtain ⟨m1, hm1, hr1⟩ := iha s hs q hq
              obtain ⟨m2, hm2, hr2⟩ := ihn (.star a) q.1 (by omega) q2 hq2
              have hm1ne : m1 ≠ [] := by
                intro hnil
                rw [hnil, List.nil_append] at hm1
                rw [← hm1] at hlt
                exact lt_irrefl _ hlt
              refine ⟨m1 ++ m2, ?_, RMatch.starCons hm1ne hr1 hr2⟩
              rw [← hpe]
              rw [hm1, hm2, List.append_assoc]
            · rw [dif_neg hlt] at hp2
              simp at hp2
          · subst hpe
            exact ⟨[], by simp, RMatch.starNil⟩
      | group a iha =>
          intro s hs p hp
          simp only [parses, List.mem_map] at hp
          obtain ⟨q, hq, hpe⟩ := hp
          obtain ⟨m, hm, hr⟩ := iha s hs q hq
          exact ⟨m, by rw [← hpe]; exact hm, RMatch.group hr⟩

/-- Completeness of the matcher: a matched prefix is found whatever
follows it. -/
theorem parses_complete (flag : Nat) {r : Rgx} {m : List Char}
    (h : RMatch flag r m) : ∀ rest, ∃ g, (rest, g) ∈ parses flag r (m ++ rest) := by
  induction h with
  | eps =>
      intro rest
      exact ⟨[], by simp [parses]⟩
  | char hc =>
      intro rest
      refine ⟨[], ?_⟩
      simp only [List.singleton_append, parses]
      rw [if_pos hc]
      simp
  | any hc =>
      intro rest
      refine ⟨[], ?_⟩
      simp only [List.singleton_append, parses]
      rw [if_pos hc]
      simp
  | @concat a b s1 s2 h1 h2 ih1 ih2 =>
      intro rest
      obtain ⟨g1, hg1⟩ := ih1 (s2 ++ rest)
      obtain ⟨g2, hg2⟩ := ih2 rest
      refine ⟨g1 ++ g2, ?_⟩
      rw [List.append_assoc]
      simp only [parses, List.mem_flatMap]
      refine ⟨(s2 ++ rest, g1), hg1, ?_⟩
      rw [dif_pos (by simp only [List.length_append]; omega)]
      simp only [List.mem_map]
      exact ⟨(rest, g2), hg2, rfl⟩
  | @altL a b s h1 ih1 =>
      intro rest
      obtain ⟨g1, hg1⟩ := ih1 rest
      refine ⟨g1 ++ noCaps b, ?_⟩
      simp only [parses, List.mem_append, List.mem_map]
      exact Or.inl ⟨(rest, g1), hg1, rfl⟩
  | @altR a b s h1 ih1 =>
      intro rest
      obtain ⟨g1, hg1⟩ := ih1 rest
      refine ⟨noCaps a ++ g1, ?_⟩
      simp only [parses, List.mem_append, List.mem_map]
      exact Or.inr ⟨(rest, g1), hg1, rfl⟩
  | @starNil a =>
      intro rest
      refine ⟨noCaps a, ?_⟩
      rw [List.nil_append, parses]
      simp
  | @starCons a s1 s2 hne h1 h2 ih1 ih2 =>
      intro rest
      obtain ⟨g1, hg1⟩ := ih1 (s2 ++ rest)
      obtain ⟨g2, hg2⟩ := ih2 rest
      refine ⟨mergeCaps g1 g2, ?_⟩
      rw [List.append_assoc, parses]
      simp only [List.mem_append, List.mem_flatMap]
      refine Or.inl ⟨(s2 ++ rest, g1), hg1, ?_⟩
      have hpos : 0 < s1.length := List.length_pos.mpr hne
      rw [dif_pos (by simp only [List.length_append]; omega)]
      simp only [List.mem_map]
      exact ⟨(rest, g2), hg2, rfl⟩
  | @group a s h1 ih1 =>
      intro rest
      obtain ⟨g1, hg1⟩ := ih1 rest
      refine ⟨some ((s ++ rest).take ((s ++ rest).length - rest.length)) :: g1, ?_⟩
      simp only [parses, List.mem_map]
      exact ⟨(rest, g1), hg1, rfl⟩

/-- Every parse carries exactly one capture slot per group. -/
theorem parses_capslen (flag : Nat) : ∀ n (r : Rgx) (s : List Char), s.length < n →
    ∀ p ∈ parses flag r s, p.2.length = numGroups r := by
  intro n
  induction n with
  | zero => intro r s hs p hp; exact absurd hs (Nat.not_lt_zero _)
  | succ n ihn =>
      intro r
      induction r with
      | eps =>
          intro s hs p hp
          simp only [parses, List.mem_singleton] at hp
          subst hp
          simp [numGroups]
      | char c =>
          intro s hs p hp
          cases s with
          | nil => simp [parses] at hp
          | cons d rest =>
              simp only [parses] at hp
              by_cases hc : rchar flag c d = true
              · rw [if_pos hc] at hp
                simp only [List.mem_singleton] at hp
                subst hp
                simp [numGroups]
              · rw [if_neg hc] at hp
                simp at hp
      | any =>
          intro s hs p hp
          cases s with
          | nil => simp [parses] at hp
          | cons d rest =>
              simp only [parses] at hp
              by_cases hc : rany d = true
              · rw [if_pos hc] at hp
                simp only [List.mem_singleton] at hp
                subst hp
                simp [numGroups]
              · rw [if_neg hc] at hp
                simp at hp
      | concat a b iha ihb =>
          intro s hs p hp
          simp only [parses, List.mem_flatMap] at hp
          obtain ⟨q, hq, hp2⟩ := hp
          have hqs : q.1 <:+ s := parses_suffix flag (n + 1) a s hs q hq
          rw [dif_pos hqs.length_le] at hp2
          simp only [List.mem_map] at hp2
          obtain ⟨q2, hq2, hpe⟩ := hp2
          have hble : q.1.length ≤ s.length := hqs.length_le
          have h1 := iha s hs q hq
          have h2 := ihb q.1 (by omega) q2 hq2
          rw [← hpe]
          simp [numGroups, h1, h2]
      | alt a b iha ihb =>
          intro s hs p hp
          simp only [parses, List.mem_append, List.mem_map] at hp
          rcases hp with ⟨q, hq, hpe⟩ | ⟨q, hq, hpe⟩
          · have h1 := iha s hs q hq
            rw [← hpe]
            simp [numGroups, noCaps, h1]
          · have h1 := ihb s hs q hq
            rw [← hpe]
            simp [numGroups, noCaps, h1]
      | star a iha =>
          intro s hs p hp
          rw [parses] at hp
          simp only [List.mem_append, List.mem_flatMap, List.mem_singleton] at hp
          rcases hp with ⟨q, hq, hp2⟩ | hpe
          · by_cases hlt : q.1.length < s.length
            · rw [dif_pos hlt] at hp2
              simp only [List.mem_map] at hp2
              obtain ⟨q2, hq2, hpe⟩ := hp2
              have h1 := iha s hs q hq
              have h2 := ihn (.star a) q.1 (by omega) q2 hq2
              rw [← hpe]
              simp only [numGroups] at h2 ⊢
              simp [mergeCaps, h1, h2]
            · rw [dif_neg hlt] at hp2
              simp at hp2
          · subst hpe
            simp [noCaps, numGroups]
      | group a iha =>
          intro s hs p hp
          simp only [parses, List.mem_map] at hp
          obtain ⟨q, hq, hpe⟩ := hp
          have h1 := iha s hs q hq
          rw [← hpe]
          simp [numGroups, h1]

/-- A successful anchored match exposes a matched prefix. -/
theorem reMatchAt_some_ex {flag : Nat} {r : Rgx} {s : List Char} {g : Caps}
    (h : reMatchAt flag r s = some g) :
    ∃ m rest, s = m ++ rest ∧ RMatch flag r m := by
  unfold reMatchAt at h
  cases hps : parses flag r s with
  | nil => rw [hps] at h; cases h
  | cons p ps =>
      obtain ⟨m, hm, hr⟩ := parses_sound flag (s.length + 1) r s (Nat.lt_succ_self _) p
        (by rw [hps]; exact List.mem_cons_self _ _)
      exact ⟨m, p.1, hm, hr⟩

/-- A successful anchored match returns one slot per capture group. -/
theorem reMatchAt_some_len {flag : Nat} {r : Rgx} {s : List Char} {g : Caps}
    (h : reMatchAt flag r s = some g) : g.length = numGroups r := by
  unfold reMatchAt at h
  cases hps : parses flag r s with
  | nil => rw [hps] at h; cases h
  | cons p ps =>
      rw [hps] at h
      have hg := Option.some.inj h
      rw [← hg]
      exact parses_capslen flag (s.length + 1) r s (Nat.lt_succ_self _) p
        (by rw [hps]; exact List.mem_cons_self _ _)

/-- The anchored matcher returns nothing exactly when no prefix of the
input matches the pattern. -/
theorem reMatchAt_none_iff (flag : Nat) (r : Rgx) (s : List Char) :
    reMatchAt flag r s = Option.none ↔
      ¬ ∃ m rest, s = m ++ rest ∧ RMatch flag r m := by
  constructor
  · intro h
    rintro ⟨m, rest, hsp, hr⟩
    obtain ⟨g, hg⟩ := parses_complete flag hr rest
    rw [← hsp] at hg
    unfold reMatchAt at h
    cases hps : parses flag r s with
    | nil =>
        rw [hps] at hg
        simp at hg
    | cons p ps =>
        rw [hps] at h
        cases h
  · intro h
    cases hma : reMatchAt flag r s with
    | none => rfl
    | some g => exact absurd (reMatchAt_some_ex hma) h

/-- The search returns nothing exactly when no substring of the input
matches the pattern. -/
theorem reSearchFrom_none_iff (flag : Nat) (r : Rgx) : ∀ s : List Char,
    reSearchFrom flag r s = Option.none ↔
      ¬ ∃ pre m post, s = pre ++ m ++ post ∧ RMatch flag r m := by
  intro s
  induction s with
  | nil =>
      rw [show reSearchFrom flag r [] = reMatchAt flag r [] from rfl,
        reMatchAt_none_iff]
      constructor
      · rintro h ⟨pre, m, post, hsp, hr⟩
        obtain ⟨hpm, hpost⟩ := List.append_eq_nil.mp hsp.symm
        obtain ⟨hpre, hm⟩ := List.append_eq_nil.mp hpm
        refine h ⟨m, post, ?_, hr⟩
        rw [hm, hpost]
        rfl
      · rintro h ⟨m, rest, hsp, hr⟩
        exact h ⟨[], m, rest, by simpa using hsp, hr⟩
  | cons c rest ih =>
      cases hma : reMatchAt flag r (c :: rest) with
      | some g =>
          rw [show reSearchFrom flag r (c :: rest) = some g by
            simp [reSearchFrom, hma]]
          constructor
          · intro h
            cases h
          · intro h
            obtain ⟨m, mrest, hsp, hr⟩ := reMatchAt_some_ex hma
            exact absurd ⟨[], m, mrest, by simpa using hsp, hr⟩ h
      | none =>
          rw [show reSearchFrom flag r (c :: rest) = reSearchFrom flag r rest by
            simp [reSearchFrom, hma]]
          rw [ih]
          constructor
          · intro h
            rintro ⟨pre, m, post, hsp, hr⟩
            cases pre with
            | nil =>
                simp only [List.nil_append] at hsp
                exact (reMatchAt_none_iff flag r (c :: rest)).mp hma ⟨m, post, hsp, hr⟩
            | cons c2 pre2 =>
                simp only [List.cons_append] at hsp
                injection hsp with h1 h2
                exact h ⟨pre2, m, post, h2, hr⟩
          · intro h
            rintro ⟨pre, m, post, hsp, hr⟩
            exact h ⟨c :: pre, m, post, by rw [hsp]; simp, hr⟩

/-- A successful search returns one slot per capture group. -/
theorem reSearchFrom_some_len {flag : Nat} {r : Rgx} : ∀ {s : List Char} {g : Caps},
    reSearchFrom flag r s = some g → g.length = numGroups r := by
  intro s
  induction s with
  | nil =>
      intro g h
      exact reMatchAt_some_len h
  | cons c rest ih =>
      intro g h
      cases hma : reMatchAt flag r (c :: rest) with
      | some g2 =>
          rw [show reSearchFrom flag r (c :: rest) = some g2 by
            simp [reSearchFrom, hma]] at h
          have hg := Option.some.inj h
          rw [← hg]
          exact reMatchAt_some_len hma
      | none =>
          rw [show reSearchFrom flag r (c :: rest) = reSearchFrom flag r rest by
            simp [reSearchFrom, hma]] at h
          exact ih h

/-- C10: regex_search and regex_match return the absent value exactly
when the pattern matches no substring (respectively no prefix) of the
text; and when a pattern with zero capture groups does match, they
return the empty tuple — a present value — because the source tests the
match object itself (`if not obj`), not its groups. -/
theorem regex_absent_iff (ic ml : Bool) (rgx : Rgx) (txt : List Char) :
    (regex_search txt rgx ic ml = Val.none ↔
      ¬ ∃ pre m post, txt = pre ++ m ++ post ∧ RMatch (reFlag ic ml) rgx m) ∧
    (regex_match txt rgx ic ml = Val.none ↔
      ¬ ∃ m post, txt = m ++ post ∧ RMatch (reFlag ic ml) rgx m) ∧
    (numGroups rgx = 0 →
      (∃ pre m post, txt = pre ++ m ++ post ∧ RMatch (reFlag ic ml) rgx m) →
      regex_search txt rgx ic ml = .tuple []) ∧
    (numGroups rgx = 0 →
      (∃ m post, txt = m ++ post ∧ RMatch (reFlag ic ml) rgx m) →
      regex_match txt rgx ic ml = .tuple []) := by
  refine ⟨?_, ?_, ?_, ?_⟩
  · constructor
    · intro h
      cases hs : reSearchFrom (reFlag ic ml) rgx txt with
      | none => exact (reSearchFrom_none_iff _ _ txt).mp hs
      | some g =>
          unfold regex_search at h
          rw [hs] at h
          exact Val.noConfusion h
    · intro h
      have hs : reSearchFrom (reFlag ic ml) rgx txt = Option.none :=
        (reSearchFrom_none_iff _ _ txt).mpr h
      unfold regex_search
      rw [hs]
  · constructor
    · intro h
      cases hs : reMatchAt (reFlag ic ml) rgx txt with
      | none => exact (reMatchAt_none_iff _ _ txt).mp hs
      | some g =>
          unfold regex_match at h
          rw [hs] at h
          exact Val.noConfusion h
    · intro h
      have hs : reMatchAt (reFlag ic ml) rgx txt = Option.none :=
        (reMatchAt_none_iff _ _ txt).mpr h
      unfold regex_match
      rw [hs]
  · intro hng hex
    cases hs : reSearchFrom (reFlag ic ml) rgx txt with
    | none => exact absurd hex ((reSearchFrom_none_iff _ _ txt).mp hs)
    | some g =>
        have hlen : g.length = 0 := by rw [reSearchFrom_some_len hs]; exact hng
        have hg : g = [] := List.eq_nil_of_length_eq_zero hlen
        unfold regex_search
        rw [hs, hg]
        rfl
  · intro hng hex
    cases hs : reMatchAt (reFlag ic ml) rgx txt with
    | none => exact absurd hex ((reMatchAt_none_iff _ _ txt).mp hs)
    | some g =>
        have hlen : g.length = 0 := by rw [reMatchAt_some_len hs]; exact hng
        have hg : g = [] := List.eq_nil_of_length_eq_zero hlen
        unfold regex_match
        rw [hs, hg]
        rfl

/-- Witness for C10: the group-free pattern .* matches inside "ab", and
both filters return the empty tuple, a present value, not the absent
one. -/
theorem regex_absent_iff_witness :
    numGroups (.star .any) = 0 ∧
    (∃ pre m post, (['a', 'b'] : List Char) = pre ++ m ++ post ∧
      RMatch (reFlag false false) (.star .any) m) ∧
    regex_search ['a', 'b'] (.star .any) false false = .tuple [] ∧
    regex_match ['a', 'b'] (.star .any) false false = .tuple [] := by
  have h1 : RMatch (reFlag false false) Rgx.any ['a'] := RMatch.any (by decide)
  have h2 : RMatch (reFlag false false) Rgx.any ['b'] := RMatch.any (by decide)
  have hm : RMatch (reFlag false false) (.star .any) ['a', 'b'] := by
    have h3 := RMatch.starCons (by simp) h2 RMatch.starNil
    have h4 := RMatch.starCons (by simp) h1 h3
    simpa using h4
  have hex : ∃ pre m post, (['a', 'b'] : List Char) = pre ++ m ++ post ∧
      RMatch (reFlag false false) (.star .any) m :=
    ⟨[], ['a', 'b'], [], by simp, hm⟩
  have hex2 : ∃ m post, (['a', 'b'] : List Char) = m ++ post ∧
      RMatch (reFlag false false) (.star .any) m :=
    ⟨['a', 'b'], [], by simp, hm⟩
  exact ⟨rfl, hex,
    (regex_absent_iff false false (.star .any) ['a', 'b']).2.2.1 rfl hex,
    (regex_absent_iff false false (.star .any) ['a', 'b']).2.2.2 rfl hex2⟩
